import Mathlib

/-!
# Wrench Forum — verification of the voting / scoring / karma core

A shallow embedding of the data-access layer of the Wrench Forum server
(`src/db.rs`) and of the comment-threading pass (`src/routes/forum.rs`),
together with proofs about the voting, scoring, karma and threading claims.

The SQLite database is modelled as a record of row lists; `i64` columns are
modelled as `Int` (no arithmetic in the modelled operations comes near the
64-bit boundary).  Each modelled function follows the corresponding Rust
function statement by statement:

* `UPDATE ... WHERE` is a `List.map` that rewrites every matching row;
* `DELETE ... WHERE` is a `List.filter` that drops every matching row;
* `SELECT ... WHERE` single-row queries are `List.find?`;
* `INSERT` appends a row; `AUTOINCREMENT` ids come from per-table counters;
* a Rust function that can return `Err` returns an `Option`; where the Rust
  code mutates before failing, the partially mutated state is returned.

Columns that carry no weight in any claim (titles, bodies, timestamps,
roles, the notifications table, …) are omitted from the row records.
-/

namespace WrenchForum

/-- A row of the `users` table (schema in `db.rs`): only the columns the
scoring core touches are kept (`id`, `karma INTEGER NOT NULL DEFAULT 0`). -/
structure UserRow where
  id : Int
  karma : Int
deriving Repr, DecidableEq

/-- A row of the `posts` table, restricted to the scoring-relevant columns. -/
structure PostRow where
  id : Int
  user_id : Int
  score : Int
deriving Repr, DecidableEq

/-- A row of the `comments` table, restricted to the scoring-relevant columns. -/
structure CommentRow where
  id : Int
  post_id : Int
  user_id : Int
  parent_id : Option Int
  score : Int
deriving Repr, DecidableEq

/-- A row of the `votes` table: `user_id`, nullable `post_id` and
`comment_id`, and `value`.  The code always sets exactly one of
`post_id`/`comment_id`. -/
structure VoteRow where
  user_id : Int
  post_id : Option Int
  comment_id : Option Int
  value : Int
deriving Repr, DecidableEq

/-- A row of the `store_votes` table (`UNIQUE(store_id, user_id)`). -/
structure StoreVoteRow where
  store_id : Int
  user_id : Int
  positive : Bool
deriving Repr, DecidableEq

/-- The database state: one list per modelled table, plus the
`AUTOINCREMENT` counters for the two tables whose fresh ids the code uses. -/
structure DBState where
  users : List UserRow
  posts : List PostRow
  comments : List CommentRow
  votes : List VoteRow
  store_votes : List StoreVoteRow
  next_post_id : Int
  next_comment_id : Int
deriving Repr, DecidableEq

/-- `update_user_karma`: `UPDATE users SET karma = karma + ?1 WHERE id = ?2`.
A no-op when no user row matches (the SQL succeeds and affects 0 rows). -/
def update_user_karma (db : DBState) (user_id delta : Int) : DBState :=
  { db with users := db.users.map fun u =>
      if u.id = user_id then { u with karma := u.karma + delta } else u }

/-- `WHERE` clause of the vote queries keyed on `(user_id, post_id)`. -/
def postVoteMatch (user_id post_id : Int) (v : VoteRow) : Bool :=
  v.user_id = user_id && v.post_id = some post_id

/-- `WHERE` clause of the vote queries keyed on `(user_id, comment_id)`. -/
def commentVoteMatch (user_id comment_id : Int) (v : VoteRow) : Bool :=
  v.user_id = user_id && v.comment_id = some comment_id

/-- `SELECT ... FROM posts WHERE id = ?1` (single row). -/
def findPost (db : DBState) (post_id : Int) : Option PostRow :=
  db.posts.find? fun p => p.id = post_id

/-- `SELECT ... FROM comments WHERE id = ?1` (single row). -/
def findComment (db : DBState) (comment_id : Int) : Option CommentRow :=
  db.comments.find? fun c => c.id = comment_id

/-- `SELECT karma FROM users WHERE id = ?1` (single row). -/
def userKarma (db : DBState) (user_id : Int) : Option Int :=
  (db.users.find? fun u => u.id = user_id).map (·.karma)

/-- `get_user_vote_for_post`:
`SELECT value FROM votes WHERE user_id = ?1 AND post_id = ?2`. -/
def get_user_vote_for_post (db : DBState) (user_id post_id : Int) : Option Int :=
  (db.votes.find? (postVoteMatch user_id post_id)).map (·.value)

/-- `get_user_vote_for_comment`:
`SELECT value FROM votes WHERE user_id = ?1 AND comment_id = ?2`. -/
def get_user_vote_for_comment (db : DBState) (user_id comment_id : Int) : Option Int :=
  (db.votes.find? (commentVoteMatch user_id comment_id)).map (·.value)

/-- `UPDATE posts SET score = score + delta WHERE id = ?` (the three score
updates in `vote_post` all have this shape, with delta `-value`,
`-old + value` or `+value`). -/
def update_post_score (db : DBState) (post_id delta : Int) : DBState :=
  { db with posts := db.posts.map fun p =>
      if p.id = post_id then { p with score := p.score + delta } else p }

/-- `UPDATE comments SET score = score + delta WHERE id = ?`. -/
def update_comment_score (db : DBState) (comment_id delta : Int) : DBState :=
  { db with comments := db.comments.map fun c =>
      if c.id = comment_id then { c with score := c.score + delta } else c }

/-- `db::vote_post` (db.rs:1047–1100).  Reads the voter's existing vote,
reads the post author (failing — `Err`, before any write — when the post
does not exist), then toggles off / changes / inserts the vote, adjusts the
post's denormalized score and the author's karma, and re-reads and returns
the stored score. -/
def vote_post (db : DBState) (user_id post_id value : Int) : Option (DBState × Int) :=
  let existing := get_user_vote_for_post db user_id post_id
  match findPost db post_id with
  | none => none
  | some post =>
    let post_author := post.user_id
    let db1 :=
      match existing with
      | some old_value =>
        if old_value = value then
          -- Remove vote (toggle off)
          let d : DBState :=
            { db with votes := db.votes.filter fun v => !(postVoteMatch user_id post_id v) }
          let d := update_post_score d post_id (-value)
          update_user_karma d post_author (-value)
        else
          -- Change vote
          let d : DBState :=
            { db with votes := db.votes.map fun v =>
                if postVoteMatch user_id post_id v then { v with value := value } else v }
          let d := update_post_score d post_id (value - old_value)
          update_user_karma d post_author (value - old_value)
      | none =>
        -- New vote
        let d : DBState :=
          { db with votes := db.votes ++ [⟨user_id, some post_id, none, value⟩] }
        let d := update_post_score d post_id value
        update_user_karma d post_author value
    (findPost db1 post_id).map fun p => (db1, p.score)

/-- `db::vote_comment` (db.rs:1102–1152), the same transition on comments. -/
def vote_comment (db : DBState) (user_id comment_id value : Int) : Option (DBState × Int) :=
  let existing := get_user_vote_for_comment db user_id comment_id
  match findComment db comment_id with
  | none => none
  | some comment =>
    let comment_author := comment.user_id
    let db1 :=
      match existing with
      | some old_value =>
        if old_value = value then
          let d : DBState :=
            { db with votes := db.votes.filter fun v => !(commentVoteMatch user_id comment_id v) }
          let d := update_comment_score d comment_id (-value)
          update_user_karma d comment_author (-value)
        else
          let d : DBState :=
            { db with votes := db.votes.map fun v =>
                if commentVoteMatch user_id comment_id v then { v with value := value } else v }
          let d := update_comment_score d comment_id (value - old_value)
          update_user_karma d comment_author (value - old_value)
      | none =>
        let d : DBState :=
          { db with votes := db.votes ++ [⟨user_id, none, some comment_id, value⟩] }
        let d := update_comment_score d comment_id value
        update_user_karma d comment_author value
    (findComment db1 comment_id).map fun c => (db1, c.score)

/-- `db::create_post` (db.rs:655–670): insert the post with `score` 1,
auto-upvote it for the author, add 1 karma to the author.  The
`category_id`, `title` and `body` arguments only feed unmodelled columns. -/
def create_post (db : DBState) (user_id : Int) : DBState × Int :=
  let post_id := db.next_post_id
  let d : DBState :=
    { db with posts := db.posts ++ [⟨post_id, user_id, 1⟩], next_post_id := post_id + 1 }
  let d : DBState := { d with votes := d.votes ++ [⟨user_id, some post_id, none, 1⟩] }
  let d := update_user_karma d user_id 1
  (d, post_id)

/-- `db::create_comment` (db.rs:879–925): insert the comment with `score` 1
and the author's auto-upvote, then look up the post author for the
notification fan-out.  The post-author `query_row` uses `?`, so when the
post does not exist the function returns `Err` — after the two inserts have
already committed; the partial state is kept and `none` is returned in that
case.  The notification inserts touch only the (unmodelled) notifications
table, and no karma update is performed on this path. -/
def create_comment (db : DBState) (post_id user_id : Int) (parent_id : Option Int) :
    DBState × Option Int :=
  let comment_id := db.next_comment_id
  let d : DBState :=
    { db with comments := db.comments ++ [⟨comment_id, post_id, user_id, parent_id, 1⟩],
              next_comment_id := comment_id + 1 }
  let d : DBState := { d with votes := d.votes ++ [⟨user_id, none, some comment_id, 1⟩] }
  match findPost d post_id with
  | none => (d, none)
  | some _ => (d, some comment_id)

/-- `WHERE` clause keyed on `(store_id, user_id)` for store votes. -/
def storeVoteMatch (store_id user_id : Int) (v : StoreVoteRow) : Bool :=
  v.store_id = store_id && v.user_id = user_id

/-- `db::vote_store` (db.rs:1229–1235):
`INSERT OR REPLACE INTO store_votes (store_id, user_id, positive)`.
Under `UNIQUE(store_id, user_id)` this deletes any conflicting row and
inserts the new one. -/
def vote_store (db : DBState) (store_id user_id : Int) (positive : Bool) : DBState :=
  { db with store_votes :=
      (db.store_votes.filter fun v => !(storeVoteMatch store_id user_id v)) ++
        [⟨store_id, user_id, positive⟩] }

/-- `db::get_user_store_vote`:
`SELECT positive FROM store_votes WHERE store_id = ?1 AND user_id = ?2`. -/
def get_user_store_vote (db : DBState) (store_id user_id : Int) : Option Bool :=
  (db.store_votes.find? (storeVoteMatch store_id user_id)).map (·.positive)

/-- `get_stores` subquery
`SELECT COUNT(*) FROM store_votes WHERE store_id = s.id AND positive = 1`. -/
def store_pos_votes (db : DBState) (store_id : Int) : Nat :=
  (db.store_votes.filter fun v => v.store_id = store_id && v.positive).length

/-- `get_stores` subquery
`SELECT COUNT(*) FROM store_votes WHERE store_id = s.id`. -/
def store_total_votes (db : DBState) (store_id : Int) : Nat :=
  (db.store_votes.filter fun v => v.store_id = store_id).length

/-- `map_store` (db.rs:1211–1227): `reliability_score` is
`Some((pos as f64 / total as f64) * 100.0)` when `total > 0`, else `None`.
The `f64` arithmetic is modelled exactly, over `ℚ`. -/
def reliability_score (pos total : Nat) : Option ℚ :=
  if 0 < total then some ((pos : ℚ) / (total : ℚ) * 100) else none

/-- Reliability of one store as `get_stores` + `map_store` compute it. -/
def store_reliability (db : DBState) (store_id : Int) : Option ℚ :=
  reliability_score (store_pos_votes db store_id) (store_total_votes db store_id)

/-! ## Operation sequences

For the whole-trace invariant claims the five state-mutating operations of
the scoring core are packaged as an `Op`; `runOps` replays a trace.  Return
values are discarded; a `vote_post`/`vote_comment` call on a missing target
leaves the state unchanged (the Rust functions fail before their first
write), while a failing `create_comment` keeps its partial writes, exactly
as the modelled functions return them. -/

inductive Op where
  | createPost (user_id : Int)
  | createComment (post_id user_id : Int) (parent_id : Option Int)
  | votePost (user_id post_id value : Int)
  | voteComment (user_id comment_id value : Int)
  | voteStore (store_id user_id : Int) (positive : Bool)
deriving Repr, DecidableEq

/-- Apply one operation to the state, discarding the returned value. -/
def applyOp (db : DBState) : Op → DBState
  | .createPost u => (create_post db u).1
  | .createComment p u par => (create_comment db p u par).1
  | .votePost u p v => match vote_post db u p v with
    | some (d, _) => d
    | none => db
  | .voteComment u c v => match vote_comment db u c v with
    | some (d, _) => d
    | none => db
  | .voteStore s u b => vote_store db s u b

/-- Replay a trace of operations. -/
def runOps (db : DBState) : List Op → DBState
  | [] => db
  | op :: ops => runOps (applyOp db op) ops

/-- Owner of the target of a vote row: the author of the referenced post or
comment, resolved like the code resolves it (first row with the id). -/
def voteOwner (db : DBState) (v : VoteRow) : Option Int :=
  match v.post_id with
  | some pid => (findPost db pid).map (·.user_id)
  | none => match v.comment_id with
    | some cid => (findComment db cid).map (·.user_id)
    | none => none

/-- Sum of the values of all live vote rows whose target is owned by
`user_id` — the quantity the spec says `users.karma` tracks. -/
def karmaSum (db : DBState) (user_id : Int) : Int :=
  (db.votes.map fun v => if voteOwner db v = some user_id then v.value else 0).sum

/-- Number of comment rows authored by `user_id`. -/
def commentCountBy (db : DBState) (user_id : Int) : Int :=
  ((db.comments.filter fun c => c.user_id = user_id).length : Int)

/-! ## Comment threading (`routes/forum.rs`)

`thread_comments` works on the rendered `Comment` struct; the fields it
reads or writes are `id`, `parent_id`, `replies`, `user_vote` and `depth`
(the remaining payload — body, score, timestamps, author columns — plays no
role and is omitted).  The per-comment `get_user_vote_for_comment` lookup is
abstracted into a `user_vote_of` function (`fun _ => none` for a logged-out
viewer, which also matches leaving the row's initial `None` untouched).

`attach_replies` recurses through the children map with no cycle guard; in
Rust a malformed `parent_id` graph diverges.  The model adds a fuel
parameter, set to the input length by `thread_comments`: on every input
whose reachable parent graph is acyclic — in particular whenever the ids
are distinct, the only shape the primary-keyed query can produce — the fuel
is never exhausted and the model computes exactly what the Rust code does. -/

structure Comment where
  id : Int
  parent_id : Option Int
  replies : List Comment
  user_vote : Option Int
  depth : Int

/-- The `by_parent` grouping of the first pass: `by_parent.entry(p)` ends up
holding the comments with `parent_id == p` in input order. -/
def childrenOf (comments : List Comment) (p : Int) : List Comment :=
  comments.filter fun c => c.parent_id = some p

/-- `attach_replies(comment, by_parent, depth)`: set `depth`, and when the
children map has an entry for `comment.id`, replace `replies` by that entry
with each child recursively attached at `depth + 1`. -/
def attach_replies (byParent : Int → List Comment) : Nat → Int → Comment → Comment
  | 0, depth, c => { c with depth := depth }
  | fuel + 1, depth, c =>
    match byParent c.id with
    | [] => { c with depth := depth }
    | r :: rs =>
      { c with depth := depth,
               replies := (r :: rs).map fun x => attach_replies byParent fuel (depth + 1) x }

/-- `thread_comments` (forum.rs:234–266): resolve `user_vote`, partition
into top-level comments and the children map (both in input order), then
attach replies from every top-level comment at depth 0. -/
def thread_comments (user_vote_of : Int → Option Int) (comments : List Comment) :
    List Comment :=
  let comments := comments.map fun c => { c with user_vote := user_vote_of c.id }
  let top_level := comments.filter fun c => c.parent_id = none
  top_level.map fun c => attach_replies (childrenOf comments) comments.length 0 c

mutual

/-- Number of nodes of one threaded comment tree (the comment itself plus,
recursively, everything in `replies`). -/
def commentTreeSize : Comment → Nat
  | ⟨_, _, replies, _, _⟩ => 1 + commentForestSize replies

/-- Number of nodes of a forest of threaded comments. -/
def commentForestSize : List Comment → Nat
  | [] => 0
  | c :: cs => commentTreeSize c + commentForestSize cs

end

mutual

/-- Pre-order list of the ids of one threaded comment tree. -/
def commentTreeIds : Comment → List Int
  | ⟨i, _, replies, _, _⟩ => i :: commentForestIds replies

/-- Pre-order list of the ids of a forest. -/
def commentForestIds : List Comment → List Int
  | [] => []
  | c :: cs => commentTreeIds c ++ commentForestIds cs

end

mutual

/-- Pre-order list of the nodes (with their attached `replies`) of a tree. -/
def commentTreeNodes : Comment → List Comment
  | ⟨i, p, replies, u, d⟩ => ⟨i, p, replies, u, d⟩ :: commentForestNodes replies

/-- Pre-order list of the nodes of a forest. -/
def commentForestNodes : List Comment → List Comment
  | [] => []
  | c :: cs => commentTreeNodes c ++ commentForestNodes cs

end

/-- A comment is rooted in the input when its `parent_id` chain (resolved by
id within the input) reaches a top-level comment; `n` is the chain length. -/
inductive RootedAt (cs : List Comment) : Nat → Comment → Prop
  | top (c : Comment) : c ∈ cs → c.parent_id = none → RootedAt cs 0 c
  | child (c p : Comment) (n : Nat) : c ∈ cs → p ∈ cs → c.parent_id = some p.id →
      RootedAt cs n p → RootedAt cs (n + 1) c

/-- A comment whose parent chain reaches a top-level comment of the input. -/
def Rooted (cs : List Comment) (c : Comment) : Prop :=
  ∃ n, RootedAt cs n c

/-- Fuel-bounded distance to the root along the `parent_id` chain, resolving
each parent by `find?` on the id exactly as a reader of the children map
would; `none` when the chain does not reach a top-level comment within
`fuel` steps (orphaned or cyclic chains). -/
def rankF (cs : List Comment) : Nat → Comment → Option Nat
  | 0, _ => none
  | fuel + 1, c =>
    match c.parent_id with
    | none => some 0
    | some p =>
      match cs.find? (fun q => q.id = p) with
      | none => none
      | some q => (rankF cs fuel q).map (· + 1)

/-! ## Derived read-side getters used in the theorem statements -/

/-- The stored score counter of a post, as the re-read in `vote_post` sees it. -/
def postScore (db : DBState) (post_id : Int) : Option Int :=
  (findPost db post_id).map (·.score)

/-- The stored score counter of a comment. -/
def commentScore (db : DBState) (comment_id : Int) : Option Int :=
  (findComment db comment_id).map (·.score)

/-- All store-vote rows of one `(store_id, user_id)` pair. -/
def storeVoteRowsFor (db : DBState) (store_id user_id : Int) : List StoreVoteRow :=
  db.store_votes.filter (storeVoteMatch store_id user_id)

/-! ## Invariants for the whole-trace karma claims -/

/-- Rows the code writes into `votes` reference exactly one target kind. -/
def VoteShape (v : VoteRow) : Prop :=
  (v.post_id = none ∧ v.comment_id ≠ none) ∨ (v.post_id ≠ none ∧ v.comment_id = none)

/-- The column triple governing the `UNIQUE`-style at-most-one-vote rule. -/
def vkey (v : VoteRow) : Int × Option Int × Option Int :=
  (v.user_id, v.post_id, v.comment_id)

/-- Structural well-formedness of a database state: each vote row references
one target kind, no two vote rows share `(user_id, post_id, comment_id)`
(at most one vote per user and target), and all row ids and vote target ids
are below the `AUTOINCREMENT` counters.  Holds of every state the
application can reach and is preserved by every modelled operation. -/
def VotesWF (db : DBState) : Prop :=
  (∀ v ∈ db.votes, VoteShape v) ∧
  db.votes.Pairwise (fun a b => vkey a ≠ vkey b) ∧
  (∀ v ∈ db.votes, ∀ p, v.post_id = some p → p < db.next_post_id) ∧
  (∀ v ∈ db.votes, ∀ c, v.comment_id = some c → c < db.next_comment_id) ∧
  (∀ p ∈ db.posts, p.id < db.next_post_id) ∧
  (∀ c ∈ db.comments, c.id < db.next_comment_id)

/-- The karma/vote-sum relation exactly as the spec claims it: every user's
karma counter equals the sum of the live vote values on that user's posts
and comments. -/
def KarmaClaim (db : DBState) : Prop :=
  ∀ u ∈ db.users, u.karma = karmaSum db u.id

/-- The karma/vote-sum relation the code actually maintains: every user's
karma equals the vote sum on their posts and comments **minus the number of
comment rows they authored** (each `create_comment` inserts the author's
auto-upvote without the matching karma increment). -/
def KarmaInv (db : DBState) : Prop :=
  ∀ u ∈ db.users, u.karma = karmaSum db u.id - commentCountBy db u.id

/-! ## Specification-side recursions for the threading proofs -/

/-- Ids reachable from one comment through the children map in at most
`fuel` descents — the pre-order id list `attach_replies` realises. -/
def reachIds (bp : Int → List Comment) : Nat → Comment → List Int
  | 0, c => [c.id]
  | fuel + 1, c => c.id :: ((bp c.id).map (reachIds bp fuel)).flatten

/-- The comments of the input sitting at distance exactly `k` from a root
(rank measured by `rankF` with ample fuel). -/
def levelComments (cs : List Comment) (k : Nat) : List Comment :=
  cs.filter fun c => rankF cs (cs.length + 1) c = some k

/-- Concatenation of `m` consecutive levels starting at level `k`. -/
def levelsFrom (cs : List Comment) : Nat → Nat → List Comment
  | _, 0 => []
  | k, m + 1 => levelComments cs k ++ levelsFrom cs (k + 1) m

/-! ## Frame lemmas: which table each mutator touches -/

@[simp] theorem update_user_karma_posts (db : DBState) (u d : Int) :
    (update_user_karma db u d).posts = db.posts := rfl

@[simp] theorem update_user_karma_comments (db : DBState) (u d : Int) :
    (update_user_karma db u d).comments = db.comments := rfl

@[simp] theorem update_user_karma_votes (db : DBState) (u d : Int) :
    (update_user_karma db u d).votes = db.votes := rfl

@[simp] theorem update_user_karma_store_votes (db : DBState) (u d : Int) :
    (update_user_karma db u d).store_votes = db.store_votes := rfl

@[simp] theorem update_post_score_users (db : DBState) (p d : Int) :
    (update_post_score db p d).users = db.users := rfl

@[simp] theorem update_post_score_comments (db : DBState) (p d : Int) :
    (update_post_score db p d).comments = db.comments := rfl

@[simp] theorem update_post_score_votes (db : DBState) (p d : Int) :
    (update_post_score db p d).votes = db.votes := rfl

@[simp] theorem update_comment_score_users (db : DBState) (c d : Int) :
    (update_comment_score db c d).users = db.users := rfl

@[simp] theorem update_comment_score_posts (db : DBState) (c d : Int) :
    (update_comment_score db c d).posts = db.posts := rfl

@[simp] theorem update_comment_score_votes (db : DBState) (c d : Int) :
    (update_comment_score db c d).votes = db.votes := rfl

@[simp] theorem vote_store_users (db : DBState) (s u : Int) (b : Bool) :
    (vote_store db s u b).users = db.users := rfl

@[simp] theorem vote_store_posts (db : DBState) (s u : Int) (b : Bool) :
    (vote_store db s u b).posts = db.posts := rfl

@[simp] theorem vote_store_comments (db : DBState) (s u : Int) (b : Bool) :
    (vote_store db s u b).comments = db.comments := rfl

@[simp] theorem vote_store_votes (db : DBState) (s u : Int) (b : Bool) :
    (vote_store db s u b).votes = db.votes := rfl

/-! ## Effect of the three `UPDATE ... SET x = x + d` mutators on the getters -/

theorem userKarma_update_user_karma (db : DBState) (u d uid : Int) :
    userKarma (update_user_karma db u d) uid =
      (userKarma db uid).map (fun k => if uid = u then k + d else k) := by
  unfold userKarma update_user_karma
  simp only [List.find?_map]
  have hpf : ((fun x : UserRow => decide (x.id = uid)) ∘
      (fun x : UserRow => if x.id = u then { x with karma := x.karma + d } else x)) =
      (fun x : UserRow => decide (x.id = uid)) := by
    funext x
    by_cases h : x.id = u <;> simp [h]
  rw [hpf]
  cases hf : db.users.find? (fun x => decide (x.id = uid)) with
  | none => simp
  | some y =>
    have hy : y.id = uid := by
      have := List.find?_some hf
      simpa using this
    by_cases h : uid = u <;> simp [Option.map_map, Function.comp, hy, h]

theorem postScore_update_post_score (db : DBState) (p d pid : Int) :
    postScore (update_post_score db p d) pid =
      (postScore db pid).map (fun s => if pid = p then s + d else s) := by
  unfold postScore findPost update_post_score
  simp only [List.find?_map]
  have hpf : ((fun x : PostRow => decide (x.id = pid)) ∘
      (fun x : PostRow => if x.id = p then { x with score := x.score + d } else x)) =
      (fun x : PostRow => decide (x.id = pid)) := by
    funext x
    by_cases h : x.id = p <;> simp [h]
  rw [hpf]
  cases hf : db.posts.find? (fun x => decide (x.id = pid)) with
  | none => simp
  | some y =>
    have hy : y.id = pid := by
      have := List.find?_some hf
      simpa using this
    by_cases h : pid = p <;> simp [Option.map_map, Function.comp, hy, h]

theorem commentScore_update_comment_score (db : DBState) (c d cid : Int) :
    commentScore (update_comment_score db c d) cid =
      (commentScore db cid).map (fun s => if cid = c then s + d else s) := by
  unfold commentScore findComment update_comment_score
  simp only [List.find?_map]
  have hpf : ((fun x : CommentRow => decide (x.id = cid)) ∘
      (fun x : CommentRow => if x.id = c then { x with score := x.score + d } else x)) =
      (fun x : CommentRow => decide (x.id = cid)) := by
    funext x
    by_cases h : x.id = c <;> simp [h]
  rw [hpf]
  cases hf : db.comments.find? (fun x => decide (x.id = cid)) with
  | none => simp
  | some y =>
    have hy : y.id = cid := by
      have := List.find?_some hf
      simpa using this
    by_cases h : cid = c <;> simp [Option.map_map, Function.comp, hy, h]

/-! ## C10 — store votes are frame-silent on karma and scores -/

/-- C10: for every store vote operation — any store, voter and polarity,
whether it inserts a new row or replaces an existing one — no user's karma
counter and no post's or comment's score counter changes. -/
theorem vote_store_frame (db : DBState) (store_id user_id : Int) (positive : Bool) :
    (∀ uid, userKarma (vote_store db store_id user_id positive) uid = userKarma db uid) ∧
    (∀ pid, postScore (vote_store db store_id user_id positive) pid = postScore db pid) ∧
    (∀ cid, commentScore (vote_store db store_id user_id positive) cid = commentScore db cid) :=
  ⟨fun _ => rfl, fun _ => rfl, fun _ => rfl⟩

/-! ## C7 — store votes are an unconditional upsert-replace -/

/-- C7: `vote_store` overwrites any prior vote by the voter on the store
with the requested polarity (regardless of whether it matches the previous
value), never deletes a vote of any other `(store, voter)` pair, and leaves
exactly one store-vote row for the pair, carrying the requested polarity. -/
theorem vote_store_upsert_replace (db : DBState) (store_id user_id : Int) (positive : Bool) :
    get_user_store_vote (vote_store db store_id user_id positive) store_id user_id =
      some positive ∧
    storeVoteRowsFor (vote_store db store_id user_id positive) store_id user_id =
      [⟨store_id, user_id, positive⟩] ∧
    (∀ s u : Int, ¬(s = store_id ∧ u = user_id) →
      storeVoteRowsFor (vote_store db store_id user_id positive) s u =
        storeVoteRowsFor db s u) := by
  refine ⟨?_, ?_, ?_⟩
  · unfold get_user_store_vote vote_store
    rw [List.find?_append]
    have h1 : (db.store_votes.filter fun v => !(storeVoteMatch store_id user_id v)).find?
        (storeVoteMatch store_id user_id) = none := by
      rw [List.find?_eq_none]
      intro v hv
      have := (List.mem_filter.mp hv).2
      simp_all
    rw [h1]
    simp [storeVoteMatch]
  · unfold storeVoteRowsFor vote_store
    rw [List.filter_append, List.filter_filter]
    have h1 : (db.store_votes.filter fun v =>
        storeVoteMatch store_id user_id v && !(storeVoteMatch store_id user_id v)) = [] := by
      simp
    rw [h1]
    simp [storeVoteMatch]
  · intro s u hsu
    unfold storeVoteRowsFor vote_store
    rw [List.filter_append, List.filter_filter]
    have h2 : (List.filter (storeVoteMatch s u) [⟨store_id, user_id, positive⟩]) = [] := by
      rw [List.filter_cons_of_neg, List.filter_nil]
      unfold storeVoteMatch
      simp only [Bool.and_eq_true, decide_eq_true_eq]
      rintro ⟨h1, h2⟩
      exact hsu ⟨h1.symm, h2.symm⟩
    rw [h2, List.append_nil]
    apply List.filter_congr
    intro v _
    by_cases hm : storeVoteMatch s u v = true
    · have hor : v.store_id = s ∧ v.user_id = u := by
        unfold storeVoteMatch at hm
        simpa using hm
      have hne : storeVoteMatch store_id user_id v = false := by
        unfold storeVoteMatch
        by_cases h3 : v.store_id = store_id
        · have h4 : ¬ v.user_id = user_id := fun h5 =>
            hsu ⟨hor.1.symm.trans h3, hor.2.symm.trans h5⟩
          simp [h4]
        · simp [h3]
      simp [hm, hne]
    · simp [Bool.eq_false_iff.mpr hm]

/-- Witness for C7 at a concrete state: replacing user 1's positive vote on
store 5 by a negative one, the rows of the unrelated pair (6, 1) are kept. -/
theorem vote_store_upsert_replace_witness :
    ¬((6 : Int) = 5 ∧ (1 : Int) = 1) ∧
    storeVoteRowsFor
      (vote_store (vote_store ⟨[⟨1, 0⟩, ⟨2, 0⟩], [], [], [], [], 1, 1⟩ 5 1 true) 5 1 false) 6 1 =
    storeVoteRowsFor (vote_store ⟨[⟨1, 0⟩, ⟨2, 0⟩], [], [], [], [], 1, 1⟩ 5 1 true) 6 1 :=
  ⟨by decide,
   (vote_store_upsert_replace (vote_store ⟨[⟨1, 0⟩, ⟨2, 0⟩], [], [], [], [], 1, 1⟩ 5 1 true)
     5 1 false).2.2 6 1 (by decide)⟩

/-! ## C8 — karma side effects of the two creation paths diverge -/

/-- C8: `create_comment` inserts the author's auto-upvote but leaves every
user's karma counter unchanged, whereas `create_post` increments the
author's karma by 1. -/
theorem create_karma_divergence (db : DBState) (post_id user_id : Int)
    (parent_id : Option Int) (author karma0 : Int)
    (h : userKarma db author = some karma0) :
    (∀ uid, userKarma (create_comment db post_id user_id parent_id).1 uid = userKarma db uid) ∧
    userKarma (create_post db author).1 author = some (karma0 + 1) := by
  constructor
  · intro uid
    unfold create_comment
    simp only []
    split <;> rfl
  · unfold create_post
    simp only []
    rw [userKarma_update_user_karma]
    have h2 : userKarma
        { db with posts := db.posts ++ [⟨db.next_post_id, author, 1⟩],
                  next_post_id := db.next_post_id + 1,
                  votes := db.votes ++ [⟨author, some db.next_post_id, none, 1⟩] } author =
        userKarma db author := rfl
    rw [h2, h]
    simp

/-! ## C5 — creation yields score 1 and exactly the author's +1 vote -/

theorem postScore_update_user_karma (db : DBState) (u d pid : Int) :
    postScore (update_user_karma db u d) pid = postScore db pid := rfl

theorem commentScore_update_user_karma (db : DBState) (u d cid : Int) :
    commentScore (update_user_karma db u d) cid = commentScore db cid := rfl

/-- Both branches of `create_comment` return the same mutated state. -/
theorem create_comment_fst (db : DBState) (post_id user_id : Int) (par : Option Int) :
    (create_comment db post_id user_id par).1 =
      { db with
          comments := db.comments ++ [⟨db.next_comment_id, post_id, user_id, par, 1⟩],
          next_comment_id := db.next_comment_id + 1,
          votes := db.votes ++ [⟨user_id, none, some db.next_comment_id, 1⟩] } := by
  unfold create_comment
  simp only []
  split <;> rfl

/-- A successful `create_comment` returns the fresh `AUTOINCREMENT` id. -/
theorem create_comment_snd_eq (db : DBState) (post_id user_id : Int) (par : Option Int)
    (cid : Int) (hsucc : (create_comment db post_id user_id par).2 = some cid) :
    cid = db.next_comment_id := by
  unfold create_comment at hsucc
  simp only [] at hsucc
  split at hsucc
  · simp at hsucc
  · simpa using hsucc.symm

/-- C5: immediately after `create_post`, and immediately after a successful
`create_comment`, the new row carries `score = 1` and exactly one vote row
exists for the new target — the author's, with value +1.  The freshness
hypotheses state that the `AUTOINCREMENT` counters are strictly ahead of
every stored id, which holds in every reachable state. -/
theorem create_initial_score_and_vote (db : DBState) (u : Int)
    (hp : ∀ p ∈ db.posts, p.id ≠ db.next_post_id)
    (hv : ∀ v ∈ db.votes, v.post_id ≠ some db.next_post_id)
    (db2 : DBState) (pid2 u2 : Int) (par : Option Int) (cid : Int)
    (hc : ∀ c ∈ db2.comments, c.id ≠ db2.next_comment_id)
    (hv2 : ∀ v ∈ db2.votes, v.comment_id ≠ some db2.next_comment_id)
    (hsucc : (create_comment db2 pid2 u2 par).2 = some cid) :
    (postScore (create_post db u).1 (create_post db u).2 = some 1 ∧
      ((create_post db u).1.votes.filter fun v => v.post_id = some (create_post db u).2) =
        [⟨u, some (create_post db u).2, none, 1⟩]) ∧
    (commentScore (create_comment db2 pid2 u2 par).1 cid = some 1 ∧
      ((create_comment db2 pid2 u2 par).1.votes.filter fun v => v.comment_id = some cid) =
        [⟨u2, none, some cid, 1⟩]) := by
  constructor
  · constructor
    · show postScore (update_user_karma _ u 1) db.next_post_id = some 1
      rw [postScore_update_user_karma]
      unfold postScore findPost
      show ((db.posts ++ ([⟨db.next_post_id, u, 1⟩] : List PostRow)).find? fun p =>
        p.id = db.next_post_id).map (·.score) = some 1
      rw [List.find?_append]
      have h1 : (db.posts.find? fun p => decide (p.id = db.next_post_id)) = none := by
        rw [List.find?_eq_none]
        intro p hmem
        simp [hp p hmem]
      rw [h1]
      simp
    · show ((db.votes ++ ([⟨u, some db.next_post_id, none, 1⟩] : List VoteRow)).filter fun v =>
        v.post_id = some db.next_post_id) = [⟨u, some db.next_post_id, none, 1⟩]
      rw [List.filter_append]
      have h1 : (db.votes.filter fun v => decide (v.post_id = some db.next_post_id)) = [] := by
        rw [List.filter_eq_nil_iff]
        intro v hmem
        simp [hv v hmem]
      rw [h1]
      simp
  · have hcid : cid = db2.next_comment_id := create_comment_snd_eq db2 pid2 u2 par cid hsucc
    rw [create_comment_fst, hcid]
    constructor
    · unfold commentScore findComment
      show ((db2.comments ++ ([⟨db2.next_comment_id, pid2, u2, par, 1⟩] : List CommentRow)).find? fun c =>
        c.id = db2.next_comment_id).map (·.score) = some 1
      rw [List.find?_append]
      have h1 : (db2.comments.find? fun c => decide (c.id = db2.next_comment_id)) = none := by
        rw [List.find?_eq_none]
        intro c hmem
        simp [hc c hmem]
      rw [h1]
      simp
    · show ((db2.votes ++ ([⟨u2, none, some db2.next_comment_id, 1⟩] : List VoteRow)).filter fun v =>
        v.comment_id = some db2.next_comment_id) = [⟨u2, none, some db2.next_comment_id, 1⟩]
      rw [List.filter_append]
      have h1 : (db2.votes.filter fun v =>
          decide (v.comment_id = some db2.next_comment_id)) = [] := by
        rw [List.filter_eq_nil_iff]
        intro v hmem
        simp [hv2 v hmem]
      rw [h1]
      simp

/-- Witness for C5: creating a post in a fresh two-user database, and a
comment under that post. -/
theorem create_initial_score_and_vote_witness :
    ((∀ p ∈ (⟨[⟨1, 0⟩, ⟨2, 0⟩], [], [], [], [], 1, 1⟩ : DBState).posts, p.id ≠ 1) ∧
     (∀ v ∈ (⟨[⟨1, 0⟩, ⟨2, 0⟩], [], [], [], [], 1, 1⟩ : DBState).votes,
       v.post_id ≠ some 1) ∧
     (∀ c ∈ (create_post ⟨[⟨1, 0⟩, ⟨2, 0⟩], [], [], [], [], 1, 1⟩ 1).1.comments, c.id ≠ 1) ∧
     (∀ v ∈ (create_post ⟨[⟨1, 0⟩, ⟨2, 0⟩], [], [], [], [], 1, 1⟩ 1).1.votes,
       v.comment_id ≠ some 1) ∧
     (create_comment (create_post ⟨[⟨1, 0⟩, ⟨2, 0⟩], [], [], [], [], 1, 1⟩ 1).1 1 2 none).2 =
       some 1) ∧
    commentScore
      (create_comment (create_post ⟨[⟨1, 0⟩, ⟨2, 0⟩], [], [], [], [], 1, 1⟩ 1).1 1 2 none).1 1 =
      some 1 := by
  refine ⟨⟨by decide, by decide, by decide, by decide, by decide⟩, ?_⟩
  exact (create_initial_score_and_vote ⟨[⟨1, 0⟩, ⟨2, 0⟩], [], [], [], [], 1, 1⟩ 1
    (by decide) (by decide)
    (create_post ⟨[⟨1, 0⟩, ⟨2, 0⟩], [], [], [], [], 1, 1⟩ 1).1 1 2 none 1
    (by decide) (by decide) (by decide)).2.1

/-! ## The three branches of the vote transition on posts -/

/-- Re-reading a post after an `UPDATE ... SET score = score + d WHERE id`
finds the same row with the bumped score. -/
theorem findPost_update_post_score_self (db : DBState) (pid d : Int) (post : PostRow)
    (hfind : findPost db pid = some post) :
    findPost (update_post_score db pid d) pid =
      some ⟨post.id, post.user_id, post.score + d⟩ := by
  have hpid : post.id = pid := by
    have := List.find?_some hfind
    simpa using this
  unfold findPost update_post_score
  show ((db.posts.map fun p =>
    if p.id = pid then { p with score := p.score + d } else p).find? fun p => p.id = pid) = _
  rw [List.find?_map]
  have hcomp : ((fun p : PostRow => decide (p.id = pid)) ∘
      (fun p : PostRow => if p.id = pid then { p with score := p.score + d } else p)) =
      (fun p : PostRow => decide (p.id = pid)) := by
    funext p
    by_cases h : p.id = pid <;> simp [h]
  rw [hcomp]
  have : db.posts.find? (fun p => decide (p.id = pid)) = some post := hfind
  rw [this]
  simp [hpid]

/-- Re-reading a comment after the score `UPDATE` finds the bumped row. -/
theorem findComment_update_comment_score_self (db : DBState) (cid d : Int) (c : CommentRow)
    (hfind : findComment db cid = some c) :
    findComment (update_comment_score db cid d) cid =
      some ⟨c.id, c.post_id, c.user_id, c.parent_id, c.score + d⟩ := by
  have hcid : c.id = cid := by
    have := List.find?_some hfind
    simpa using this
  unfold findComment update_comment_score
  show ((db.comments.map fun x =>
    if x.id = cid then { x with score := x.score + d } else x).find? fun x => x.id = cid) = _
  rw [List.find?_map]
  have hcomp : ((fun x : CommentRow => decide (x.id = cid)) ∘
      (fun x : CommentRow => if x.id = cid then { x with score := x.score + d } else x)) =
      (fun x : CommentRow => decide (x.id = cid)) := by
    funext x
    by_cases h : x.id = cid <;> simp [h]
  rw [hcomp]
  have : db.comments.find? (fun x => decide (x.id = cid)) = some c := hfind
  rw [this]
  simp [hcid]

/-- `vote_post`, `None` branch: first vote by this user on this post. -/
theorem vote_post_new (db : DBState) (u pid v : Int) (post : PostRow) (k : Int)
    (hfind : findPost db pid = some post)
    (hex : get_user_vote_for_post db u pid = none)
    (hk : userKarma db post.user_id = some k) :
    ∃ d, vote_post db u pid v = some (d, post.score + v) ∧
      findPost d pid = some ⟨post.id, post.user_id, post.score + v⟩ ∧
      get_user_vote_for_post d u pid = some v ∧
      userKarma d post.user_id = some (k + v) := by
  refine ⟨update_user_karma (update_post_score
    { db with votes := db.votes ++ [⟨u, some pid, none, v⟩] } pid v) post.user_id v,
    ?_, ?_, ?_, ?_⟩
  · unfold vote_post
    rw [hex, hfind]
    dsimp only
    have hfind1 : findPost (update_user_karma (update_post_score
        { db with votes := db.votes ++ [⟨u, some pid, none, v⟩] } pid v) post.user_id v) pid =
        some ⟨post.id, post.user_id, post.score + v⟩ :=
      findPost_update_post_score_self _ pid v post hfind
    rw [hfind1]
    rfl
  · exact findPost_update_post_score_self _ pid v post hfind
  · show ((db.votes ++ ([⟨u, some pid, none, v⟩] : List VoteRow)).find?
      (postVoteMatch u pid)).map (·.value) = some v
    rw [List.find?_append]
    have hn : db.votes.find? (postVoteMatch u pid) = none := by
      cases h : db.votes.find? (postVoteMatch u pid) with
      | none => rfl
      | some w =>
        unfold get_user_vote_for_post at hex
        rw [h] at hex
        simp at hex
    rw [hn]
    simp [postVoteMatch]
  · rw [userKarma_update_user_karma]
    have h1 : userKarma (update_post_score
        { db with votes := db.votes ++ [⟨u, some pid, none, v⟩] } pid v) post.user_id =
        some k := hk
    rw [h1]
    simp

/-- `vote_post`, toggle-off branch: the existing vote equals the request. -/
theorem vote_post_toggle (db : DBState) (u pid v : Int) (post : PostRow) (k : Int)
    (hfind : findPost db pid = some post)
    (hex : get_user_vote_for_post db u pid = some v)
    (hk : userKarma db post.user_id = some k) :
    ∃ d, vote_post db u pid v = some (d, post.score - v) ∧
      findPost d pid = some ⟨post.id, post.user_id, post.score - v⟩ ∧
      get_user_vote_for_post d u pid = none ∧
      userKarma d post.user_id = some (k - v) := by
  refine ⟨update_user_karma (update_post_score
    { db with votes := db.votes.filter fun w => !(postVoteMatch u pid w) } pid (-v))
    post.user_id (-v), ?_, ?_, ?_, ?_⟩
  · unfold vote_post
    rw [hex, hfind]
    dsimp only
    rw [if_pos rfl]
    have hfind1 : findPost (update_user_karma (update_post_score
        { db with votes := db.votes.filter fun w => !(postVoteMatch u pid w) } pid (-v))
        post.user_id (-v)) pid = some ⟨post.id, post.user_id, post.score + -v⟩ :=
      findPost_update_post_score_self _ pid (-v) post hfind
    rw [hfind1]
    simp [sub_eq_add_neg]
  · have h1 : findPost (update_user_karma (update_post_score
        { db with votes := db.votes.filter fun w => !(postVoteMatch u pid w) } pid (-v))
        post.user_id (-v)) pid = some ⟨post.id, post.user_id, post.score + -v⟩ :=
      findPost_update_post_score_self _ pid (-v) post hfind
    rw [h1, sub_eq_add_neg]
  · show ((db.votes.filter fun w => !(postVoteMatch u pid w)).find?
      (postVoteMatch u pid)).map (·.value) = none
    have hn : (db.votes.filter fun w => !(postVoteMatch u pid w)).find?
        (postVoteMatch u pid) = none := by
      rw [List.find?_eq_none]
      intro w hw
      have := (List.mem_filter.mp hw).2
      simp_all
    rw [hn]
    rfl
  · rw [userKarma_update_user_karma]
    have h1 : userKarma (update_post_score
        { db with votes := db.votes.filter fun w => !(postVoteMatch u pid w) } pid (-v))
        post.user_id = some k := hk
    rw [h1]
    simp [sub_eq_add_neg]

/-- `vote_post`, change branch: the existing vote differs from the request. -/
theorem vote_post_change (db : DBState) (u pid v old : Int) (post : PostRow) (k : Int)
    (hfind : findPost db pid = some post)
    (hex : get_user_vote_for_post db u pid = some old)
    (hne : ¬ old = v)
    (hk : userKarma db post.user_id = some k) :
    ∃ d, vote_post db u pid v = some (d, post.score - old + v) ∧
      findPost d pid = some ⟨post.id, post.user_id, post.score - old + v⟩ ∧
      get_user_vote_for_post d u pid = some v ∧
      userKarma d post.user_id = some (k - old + v) := by
  have harith : post.score + (v - old) = post.score - old + v := by ring
  have harith2 : k + (v - old) = k - old + v := by ring
  refine ⟨update_user_karma (update_post_score
    { db with votes := db.votes.map fun w =>
        if postVoteMatch u pid w then { w with value := v } else w } pid (v - old))
    post.user_id (v - old), ?_, ?_, ?_, ?_⟩
  · unfold vote_post
    rw [hex, hfind]
    dsimp only
    rw [if_neg hne]
    have hfind1 : findPost (update_user_karma (update_post_score
        { db with votes := db.votes.map fun w =>
            if postVoteMatch u pid w then { w with value := v } else w } pid (v - old))
        post.user_id (v - old)) pid =
        some ⟨post.id, post.user_id, post.score + (v - old)⟩ :=
      findPost_update_post_score_self _ pid (v - old) post hfind
    rw [hfind1]
    simp [harith]
  · have h1 : findPost (update_user_karma (update_post_score
        { db with votes := db.votes.map fun w =>
            if postVoteMatch u pid w then { w with value := v } else w } pid (v - old))
        post.user_id (v - old)) pid =
        some ⟨post.id, post.user_id, post.score + (v - old)⟩ :=
      findPost_update_post_score_self _ pid (v - old) post hfind
    rw [h1, harith]
  · show ((db.votes.map fun w =>
      if postVoteMatch u pid w then { w with value := v } else w).find?
      (postVoteMatch u pid)).map (·.value) = some v
    rw [List.find?_map]
    have hcomp : ((postVoteMatch u pid) ∘ (fun w : VoteRow =>
        if postVoteMatch u pid w then { w with value := v } else w)) =
        postVoteMatch u pid := by
      funext w
      by_cases hw : postVoteMatch u pid w
      · simp only [Function.comp, if_pos hw]
        rfl
      · simp only [Function.comp, if_neg hw]
    rw [hcomp]
    cases h : db.votes.find? (postVoteMatch u pid) with
    | none =>
      unfold get_user_vote_for_post at hex
      rw [h] at hex
      simp at hex
    | some w =>
      have hw : postVoteMatch u pid w := List.find?_some h
      simp [if_pos hw]
  · rw [userKarma_update_user_karma]
    have h1 : userKarma (update_post_score
        { db with votes := db.votes.map fun w =>
            if postVoteMatch u pid w then { w with value := v } else w } pid (v - old))
        post.user_id = some k := hk
    rw [h1]
    simp [harith2]

/-- `vote_comment`, `None` branch: first vote by this user on this comment. -/
theorem vote_comment_new (db : DBState) (u cid v : Int) (c : CommentRow) (k : Int)
    (hfind : findComment db cid = some c)
    (hex : get_user_vote_for_comment db u cid = none)
    (hk : userKarma db c.user_id = some k) :
    ∃ d, vote_comment db u cid v = some (d, c.score + v) ∧
      findComment d cid = some ⟨c.id, c.post_id, c.user_id, c.parent_id, c.score + v⟩ ∧
      get_user_vote_for_comment d u cid = some v ∧
      userKarma d c.user_id = some (k + v) := by
  refine ⟨update_user_karma (update_comment_score
    { db with votes := db.votes ++ [⟨u, none, some cid, v⟩] } cid v) c.user_id v,
    ?_, ?_, ?_, ?_⟩
  · unfold vote_comment
    rw [hex, hfind]
    dsimp only
    have hfind1 : findComment (update_user_karma (update_comment_score
        { db with votes := db.votes ++ [⟨u, none, some cid, v⟩] } cid v) c.user_id v) cid =
        some ⟨c.id, c.post_id, c.user_id, c.parent_id, c.score + v⟩ :=
      findComment_update_comment_score_self _ cid v c hfind
    rw [hfind1]
    rfl
  · exact findComment_update_comment_score_self _ cid v c hfind
  · show ((db.votes ++ ([⟨u, none, some cid, v⟩] : List VoteRow)).find?
      (commentVoteMatch u cid)).map (·.value) = some v
    rw [List.find?_append]
    have hn : db.votes.find? (commentVoteMatch u cid) = none := by
      cases h : db.votes.find? (commentVoteMatch u cid) with
      | none => rfl
      | some w =>
        unfold get_user_vote_for_comment at hex
        rw [h] at hex
        simp at hex
    rw [hn]
    simp [commentVoteMatch]
  · rw [userKarma_update_user_karma]
    have h1 : userKarma (update_comment_score
        { db with votes := db.votes ++ [⟨u, none, some cid, v⟩] } cid v) c.user_id =
        some k := hk
    rw [h1]
    simp

/-- `vote_comment`, toggle-off branch. -/
theorem vote_comment_toggle (db : DBState) (u cid v : Int) (c : CommentRow) (k : Int)
    (hfind : findComment db cid = some c)
    (hex : get_user_vote_for_comment db u cid = some v)
    (hk : userKarma db c.user_id = some k) :
    ∃ d, vote_comment db u cid v = some (d, c.score - v) ∧
      findComment d cid = some ⟨c.id, c.post_id, c.user_id, c.parent_id, c.score - v⟩ ∧
      get_user_vote_for_comment d u cid = none ∧
      userKarma d c.user_id = some (k - v) := by
  refine ⟨update_user_karma (update_comment_score
    { db with votes := db.votes.filter fun w => !(commentVoteMatch u cid w) } cid (-v))
    c.user_id (-v), ?_, ?_, ?_, ?_⟩
  · unfold vote_comment
    rw [hex, hfind]
    dsimp only
    rw [if_pos rfl]
    have hfind1 : findComment (update_user_karma (update_comment_score
        { db with votes := db.votes.filter fun w => !(commentVoteMatch u cid w) } cid (-v))
        c.user_id (-v)) cid =
        some ⟨c.id, c.post_id, c.user_id, c.parent_id, c.score + -v⟩ :=
      findComment_update_comment_score_self _ cid (-v) c hfind
    rw [hfind1]
    simp [sub_eq_add_neg]
  · have h1 : findComment (update_user_karma (update_comment_score
        { db with votes := db.votes.filter fun w => !(commentVoteMatch u cid w) } cid (-v))
        c.user_id (-v)) cid =
        some ⟨c.id, c.post_id, c.user_id, c.parent_id, c.score + -v⟩ :=
      findComment_update_comment_score_self _ cid (-v) c hfind
    rw [h1, sub_eq_add_neg]
  · show ((db.votes.filter fun w => !(commentVoteMatch u cid w)).find?
      (commentVoteMatch u cid)).map (·.value) = none
    have hn : (db.votes.filter fun w => !(commentVoteMatch u cid w)).find?
        (commentVoteMatch u cid) = none := by
      rw [List.find?_eq_none]
      intro w hw
      have := (List.mem_filter.mp hw).2
      simp_all
    rw [hn]
    rfl
  · rw [userKarma_update_user_karma]
    have h1 : userKarma (update_comment_score
        { db with votes := db.votes.filter fun w => !(commentVoteMatch u cid w) } cid (-v))
        c.user_id = some k := hk
    rw [h1]
    simp [sub_eq_add_neg]

/-- `vote_comment`, change branch. -/
theorem vote_comment_change (db : DBState) (u cid v old : Int) (c : CommentRow) (k : Int)
    (hfind : findComment db cid = some c)
    (hex : get_user_vote_for_comment db u cid = some old)
    (hne : ¬ old = v)
    (hk : userKarma db c.user_id = some k) :
    ∃ d, vote_comment db u cid v = some (d, c.score - old + v) ∧
      findComment d cid = some ⟨c.id, c.post_id, c.user_id, c.parent_id, c.score - old + v⟩ ∧
      get_user_vote_for_comment d u cid = some v ∧
      userKarma d c.user_id = some (k - old + v) := by
  have harith : c.score + (v - old) = c.score - old + v := by ring
  have harith2 : k + (v - old) = k - old + v := by ring
  refine ⟨update_user_karma (update_comment_score
    { db with votes := db.votes.map fun w =>
        if commentVoteMatch u cid w then { w with value := v } else w } cid (v - old))
    c.user_id (v - old), ?_, ?_, ?_, ?_⟩
  · unfold vote_comment
    rw [hex, hfind]
    dsimp only
    rw [if_neg hne]
    have hfind1 : findComment (update_user_karma (update_comment_score
        { db with votes := db.votes.map fun w =>
            if commentVoteMatch u cid w then { w with value := v } else w } cid (v - old))
        c.user_id (v - old)) cid =
        some ⟨c.id, c.post_id, c.user_id, c.parent_id, c.score + (v - old)⟩ :=
      findComment_update_comment_score_self _ cid (v - old) c hfind
    rw [hfind1]
    simp [harith]
  · have h1 : findComment (update_user_karma (update_comment_score
        { db with votes := db.votes.map fun w =>
            if commentVoteMatch u cid w then { w with value := v } else w } cid (v - old))
        c.user_id (v - old)) cid =
        some ⟨c.id, c.post_id, c.user_id, c.parent_id, c.score + (v - old)⟩ :=
      findComment_update_comment_score_self _ cid (v - old) c hfind
    rw [h1, harith]
  · show ((db.votes.map fun w =>
      if commentVoteMatch u cid w then { w with value := v } else w).find?
      (commentVoteMatch u cid)).map (·.value) = some v
    rw [List.find?_map]
    have hcomp : ((commentVoteMatch u cid) ∘ (fun w : VoteRow =>
        if commentVoteMatch u cid w then { w with value := v } else w)) =
        commentVoteMatch u cid := by
      funext w
      by_cases hw : commentVoteMatch u cid w
      · simp only [Function.comp, if_pos hw]
        rfl
      · simp only [Function.comp, if_neg hw]
    rw [hcomp]
    cases h : db.votes.find? (commentVoteMatch u cid) with
    | none =>
      unfold get_user_vote_for_comment at hex
      rw [h] at hex
      simp at hex
    | some w =>
      have hw : commentVoteMatch u cid w := List.find?_some h
      simp [if_pos hw]
  · rw [userKarma_update_user_karma]
    have h1 : userKarma (update_comment_score
        { db with votes := db.votes.map fun w =>
            if commentVoteMatch u cid w then { w with value := v } else w } cid (v - old))
        c.user_id = some k := hk
    rw [h1]
    simp [harith2]

/-! ## C1 — the vote transition table -/

/-- C1: for every voter, target and requested value `v ∈ {-1, +1}`, the vote
transition behaves per the state table — no existing vote: insert `Vote(v)`,
score and owner karma `+v`; existing vote equal to `v`: delete the row,
score and karma `-v`; existing vote `old ≠ v`: update the row to `v`, score
and karma `-old + v` — and in every case the returned value is the target's
stored score counter re-read after the update (`postScore`/`commentScore`
of the result state equals the returned integer). -/
theorem vote_transition_spec (db : DBState) (u pid cid v : Int)
    (post : PostRow) (c : CommentRow) (kp kc : Int)
    (hval : v = 1 ∨ v = -1)
    (hfp : findPost db pid = some post)
    (hkp : userKarma db post.user_id = some kp)
    (hfc : findComment db cid = some c)
    (hkc : userKarma db c.user_id = some kc) :
    ((get_user_vote_for_post db u pid = none →
      ∃ d, vote_post db u pid v = some (d, post.score + v) ∧
        postScore d pid = some (post.score + v) ∧
        get_user_vote_for_post d u pid = some v ∧
        userKarma d post.user_id = some (kp + v)) ∧
     (get_user_vote_for_post db u pid = some v →
      ∃ d, vote_post db u pid v = some (d, post.score - v) ∧
        postScore d pid = some (post.score - v) ∧
        get_user_vote_for_post d u pid = none ∧
        userKarma d post.user_id = some (kp - v)) ∧
     (∀ old, get_user_vote_for_post db u pid = some old → old ≠ v →
      ∃ d, vote_post db u pid v = some (d, post.score - old + v) ∧
        postScore d pid = some (post.score - old + v) ∧
        get_user_vote_for_post d u pid = some v ∧
        userKarma d post.user_id = some (kp - old + v))) ∧
    ((get_user_vote_for_comment db u cid = none →
      ∃ d, vote_comment db u cid v = some (d, c.score + v) ∧
        commentScore d cid = some (c.score + v) ∧
        get_user_vote_for_comment d u cid = some v ∧
        userKarma d c.user_id = some (kc + v)) ∧
     (get_user_vote_for_comment db u cid = some v →
      ∃ d, vote_comment db u cid v = some (d, c.score - v) ∧
        commentScore d cid = some (c.score - v) ∧
        get_user_vote_for_comment d u cid = none ∧
        userKarma d c.user_id = some (kc - v)) ∧
     (∀ old, get_user_vote_for_comment db u cid = some old → old ≠ v →
      ∃ d, vote_comment db u cid v = some (d, c.score - old + v) ∧
        commentScore d cid = some (c.score - old + v) ∧
        get_user_vote_for_comment d u cid = some v ∧
        userKarma d c.user_id = some (kc - old + v))) := by
  refine ⟨⟨?_, ?_, ?_⟩, ⟨?_, ?_, ?_⟩⟩
  · intro hex
    obtain ⟨d, h1, h2, h3, h4⟩ := vote_post_new db u pid v post kp hfp hex hkp
    exact ⟨d, h1, by simp [postScore, h2], h3, h4⟩
  · intro hex
    obtain ⟨d, h1, h2, h3, h4⟩ := vote_post_toggle db u pid v post kp hfp hex hkp
    exact ⟨d, h1, by simp [postScore, h2], h3, h4⟩
  · intro old hex hne
    obtain ⟨d, h1, h2, h3, h4⟩ := vote_post_change db u pid v old post kp hfp hex hne hkp
    exact ⟨d, h1, by simp [postScore, h2], h3, h4⟩
  · intro hex
    obtain ⟨d, h1, h2, h3, h4⟩ := vote_comment_new db u cid v c kc hfc hex hkc
    exact ⟨d, h1, by simp [commentScore, h2], h3, h4⟩
  · intro hex
    obtain ⟨d, h1, h2, h3, h4⟩ := vote_comment_toggle db u cid v c kc hfc hex hkc
    exact ⟨d, h1, by simp [commentScore, h2], h3, h4⟩
  · intro old hex hne
    obtain ⟨d, h1, h2, h3, h4⟩ := vote_comment_change db u cid v old c kc hfc hex hne hkc
    exact ⟨d, h1, by simp [commentScore, h2], h3, h4⟩

/-- Witness for C1: user 2 upvotes post 1 and comment 1 (both authored by
user 1, score 1, author karma 1) in a concrete reachable database. -/
theorem vote_transition_spec_witness :
    (((1 : Int) = 1 ∨ (1 : Int) = -1) ∧
     findPost
       (create_comment (create_post ⟨[⟨1, 0⟩, ⟨2, 0⟩], [], [], [], [], 1, 1⟩ 1).1 1 1 none).1 1 =
       some ⟨1, 1, 1⟩ ∧
     userKarma
       (create_comment (create_post ⟨[⟨1, 0⟩, ⟨2, 0⟩], [], [], [], [], 1, 1⟩ 1).1 1 1 none).1 1 =
       some 1 ∧
     findComment
       (create_comment (create_post ⟨[⟨1, 0⟩, ⟨2, 0⟩], [], [], [], [], 1, 1⟩ 1).1 1 1 none).1 1 =
       some ⟨1, 1, 1, none, 1⟩ ∧
     get_user_vote_for_post
       (create_comment (create_post ⟨[⟨1, 0⟩, ⟨2, 0⟩], [], [], [], [], 1, 1⟩ 1).1 1 1 none).1
       2 1 = none) ∧
    (∃ d, vote_post
        (create_comment (create_post ⟨[⟨1, 0⟩, ⟨2, 0⟩], [], [], [], [], 1, 1⟩ 1).1 1 1 none).1
        2 1 1 = some (d, (1 : Int) + 1) ∧
      postScore d 1 = some ((1 : Int) + 1) ∧
      get_user_vote_for_post d 2 1 = some 1 ∧
      userKarma d 1 = some ((1 : Int) + 1)) := by
  refine ⟨⟨Or.inl rfl, by decide, by decide, by decide, by decide⟩, ?_⟩
  exact (vote_transition_spec
    (create_comment (create_post ⟨[⟨1, 0⟩, ⟨2, 0⟩], [], [], [], [], 1, 1⟩ 1).1 1 1 none).1
    2 1 1 1 ⟨1, 1, 1⟩ ⟨1, 1, 1, none, 1⟩ 1 1
    (Or.inl rfl) (by decide) (by decide) (by decide) (by decide)).1.1 (by decide)

/-! ## C4 — double same-value vote -/

/-- Counterexample to C4 as stated: after `create_post`, the author already
holds the auto-upvote Vote row.  The author then casts `+1` twice in
immediate succession: both calls succeed, the final returned score is the
pre-pair baseline 1, but a Vote row by that user on that target **does**
exist afterwards (value `+1`) — the first call toggled the auto-upvote off
and the second call re-inserted it, so "no Vote row exists afterward" is
false for this voter/target/prior-state. -/
theorem vote_toggle_counterexample :
    ((vote_post (create_post ⟨[⟨1, 0⟩, ⟨2, 0⟩], [], [], [], [], 1, 1⟩ 1).1 1 1 1).bind
      fun p => vote_post p.1 1 1 1).map
      (fun p => (p.2, get_user_vote_for_post p.1 1 1)) = some (1, some 1) := by
  decide

/-- C4 as amended: when the voter has **no existing vote row** on the target
before the first of the two calls, casting the same value twice in immediate
succession returns the target's score to its pre-pair baseline and leaves no
Vote row by that voter on that target (and the owner's karma returns to its
baseline as well). -/
theorem vote_toggle_roundtrip (db : DBState) (u pid cid v : Int)
    (post : PostRow) (c : CommentRow) (kp kc : Int)
    (hfp : findPost db pid = some post)
    (hkp : userKarma db post.user_id = some kp)
    (hexp : get_user_vote_for_post db u pid = none)
    (hfc : findComment db cid = some c)
    (hkc : userKarma db c.user_id = some kc)
    (hexc : get_user_vote_for_comment db u cid = none) :
    (∃ d1 d2, vote_post db u pid v = some (d1, post.score + v) ∧
      vote_post d1 u pid v = some (d2, post.score) ∧
      postScore d2 pid = some post.score ∧
      get_user_vote_for_post d2 u pid = none ∧
      userKarma d2 post.user_id = some kp) ∧
    (∃ d1 d2, vote_comment db u cid v = some (d1, c.score + v) ∧
      vote_comment d1 u cid v = some (d2, c.score) ∧
      commentScore d2 cid = some c.score ∧
      get_user_vote_for_comment d2 u cid = none ∧
      userKarma d2 c.user_id = some kc) := by
  constructor
  · obtain ⟨d1, h1, h2, h3, h4⟩ := vote_post_new db u pid v post kp hfp hexp hkp
    obtain ⟨d2, g1, g2, g3, g4⟩ :=
      vote_post_toggle d1 u pid v ⟨post.id, post.user_id, post.score + v⟩ (kp + v) h2 h3 h4
    refine ⟨d1, d2, h1, ?_, ?_, g3, ?_⟩
    · rw [g1]
      norm_num
    · simp only [postScore, g2]
      norm_num
    · rw [g4]
      norm_num
  · obtain ⟨d1, h1, h2, h3, h4⟩ := vote_comment_new db u cid v c kc hfc hexc hkc
    obtain ⟨d2, g1, g2, g3, g4⟩ :=
      vote_comment_toggle d1 u cid v ⟨c.id, c.post_id, c.user_id, c.parent_id, c.score + v⟩
        (kc + v) h2 h3 h4
    refine ⟨d1, d2, h1, ?_, ?_, g3, ?_⟩
    · rw [g1]
      norm_num
    · simp only [commentScore, g2]
      norm_num
    · rw [g4]
      norm_num

/-- Witness for the amended C4: user 2, with no prior vote, double-upvotes
post 1 and comment 1 of a concrete database. -/
theorem vote_toggle_roundtrip_witness :
    (findPost
       (create_comment (create_post ⟨[⟨1, 0⟩, ⟨2, 0⟩], [], [], [], [], 1, 1⟩ 1).1 1 1 none).1 1 =
       some ⟨1, 1, 1⟩ ∧
     get_user_vote_for_post
       (create_comment (create_post ⟨[⟨1, 0⟩, ⟨2, 0⟩], [], [], [], [], 1, 1⟩ 1).1 1 1 none).1
       2 1 = none) ∧
    (∃ d1 d2, vote_post
        (create_comment (create_post ⟨[⟨1, 0⟩, ⟨2, 0⟩], [], [], [], [], 1, 1⟩ 1).1 1 1 none).1
        2 1 1 = some (d1, (1 : Int) + 1) ∧
      vote_post d1 2 1 1 = some (d2, (1 : Int)) ∧
      postScore d2 1 = some 1 ∧
      get_user_vote_for_post d2 2 1 = none ∧
      userKarma d2 1 = some 1) := by
  refine ⟨⟨by decide, by decide⟩, ?_⟩
  exact (vote_toggle_roundtrip
    (create_comment (create_post ⟨[⟨1, 0⟩, ⟨2, 0⟩], [], [], [], [], 1, 1⟩ 1).1 1 1 none).1
    2 1 1 1 ⟨1, 1, 1⟩ ⟨1, 1, 1, none, 1⟩ 1 1
    (by decide) (by decide) (by decide) (by decide) (by decide) (by decide)).1

/-! ## Sum bookkeeping for the karma invariant -/

/-- Deleting the unique match of `m` from a list removes its contribution
from a mapped sum. -/
theorem sum_map_filter_not_single {α : Type} (l : List α) (m : α → Bool) (f : α → Int)
    (hpw : l.Pairwise fun a b => ¬(m a = true ∧ m b = true)) (w : α)
    (hfind : l.find? m = some w) :
    ((l.filter fun a => !(m a)).map f).sum = (l.map f).sum - f w := by
  induction l with
  | nil => simp at hfind
  | cons a l ih =>
    rcases List.pairwise_cons.mp hpw with ⟨ha, hl⟩
    by_cases hma : m a = true
    · rw [List.find?_cons_of_pos _ hma] at hfind
      have hw : a = w := by simpa using hfind
      subst hw
      have hfl : l.filter (fun x => !(m x)) = l := by
        rw [List.filter_eq_self]
        intro b hb
        have : ¬ (m b = true) := fun h => ha b hb ⟨hma, h⟩
        simp [this]
      rw [List.filter_cons_of_neg (by simp [hma]), hfl, List.map_cons, List.sum_cons]
      ring
    · rw [List.find?_cons_of_neg _ hma] at hfind
      rw [List.filter_cons_of_pos (by simp [hma]), List.map_cons, List.sum_cons,
        List.map_cons, List.sum_cons, ih hl hfind]
      ring

/-- Rewriting the unique match of `m` by `g` swaps its contribution in a
mapped sum. -/
theorem sum_map_update_single {α : Type} (l : List α) (m : α → Bool) (f : α → Int)
    (g : α → α)
    (hpw : l.Pairwise fun a b => ¬(m a = true ∧ m b = true)) (w : α)
    (hfind : l.find? m = some w) :
    (((l.map fun a => if m a then g a else a).map f)).sum =
      (l.map f).sum - f w + f (g w) := by
  induction l with
  | nil => simp at hfind
  | cons a l ih =>
    rcases List.pairwise_cons.mp hpw with ⟨ha, hl⟩
    by_cases hma : m a = true
    · rw [List.find?_cons_of_pos _ hma] at hfind
      have hw : a = w := by simpa using hfind
      subst hw
      have hfl : l.map (fun x => if m x then g x else x) = l := by
        have : ∀ x ∈ l, (if m x then g x else x) = x := by
          intro b hb
          have : ¬ (m b = true) := fun h => ha b hb ⟨hma, h⟩
          simp [this]
        rw [List.map_congr_left this]
        simp
      rw [List.map_cons, if_pos hma, hfl, List.map_cons, List.sum_cons,
        List.map_cons, List.sum_cons]
      ring
    · rw [List.find?_cons_of_neg _ hma] at hfind
      rw [List.map_cons, if_neg hma, List.map_cons, List.sum_cons,
        List.map_cons, List.sum_cons, ih hl hfind]
      ring

/-- `voteOwner` only reads the posts and comments tables. -/
theorem voteOwner_congr (db db' : DBState) (hp : db'.posts = db.posts)
    (hc : db'.comments = db.comments) (x : VoteRow) :
    voteOwner db' x = voteOwner db x := by
  unfold voteOwner findPost findComment
  rw [hp, hc]

/-- A score-only post `UPDATE` does not change any vote's owner. -/
theorem voteOwner_update_post_score (db : DBState) (pid d : Int) (x : VoteRow) :
    voteOwner (update_post_score db pid d) x = voteOwner db x := by
  unfold voteOwner
  cases hx : x.post_id with
  | some p =>
    show ((update_post_score db pid d).posts.find? fun q => q.id = p).map (·.user_id) =
      ((db.posts.find? fun q => q.id = p).map (·.user_id))
    unfold update_post_score
    show ((db.posts.map fun q =>
      if q.id = pid then { q with score := q.score + d } else q).find? fun q => q.id = p).map
        (·.user_id) = _
    rw [List.find?_map]
    have hcomp : ((fun q : PostRow => decide (q.id = p)) ∘
        (fun q : PostRow => if q.id = pid then { q with score := q.score + d } else q)) =
        (fun q : PostRow => decide (q.id = p)) := by
      funext q
      by_cases h : q.id = pid <;> simp [h]
    rw [hcomp]
    cases hq : db.posts.find? (fun q => decide (q.id = p)) with
    | none => rfl
    | some q => by_cases h : q.id = pid <;> simp [h]
  | none =>
    cases x.comment_id with
    | none => rfl
    | some c => rfl

/-- A score-only comment `UPDATE` does not change any vote's owner. -/
theorem voteOwner_update_comment_score (db : DBState) (cid d : Int) (x : VoteRow) :
    voteOwner (update_comment_score db cid d) x = voteOwner db x := by
  unfold voteOwner
  cases hx : x.post_id with
  | some p => rfl
  | none =>
    cases hc : x.comment_id with
    | none => rfl
    | some cc =>
      show ((update_comment_score db cid d).comments.find? fun q => q.id = cc).map
        (·.user_id) = ((db.comments.find? fun q => q.id = cc).map (·.user_id))
      unfold update_comment_score
      show ((db.comments.map fun q =>
        if q.id = cid then { q with score := q.score + d } else q).find? fun q => q.id = cc).map
          (·.user_id) = _
      rw [List.find?_map]
      have hcomp : ((fun q : CommentRow => decide (q.id = cc)) ∘
          (fun q : CommentRow => if q.id = cid then { q with score := q.score + d } else q)) =
          (fun q : CommentRow => decide (q.id = cc)) := by
        funext q
        by_cases h : q.id = cid <;> simp [h]
      rw [hcomp]
      cases hq : db.comments.find? (fun q => decide (q.id = cc)) with
      | none => rfl
      | some q => by_cases h : q.id = cid <;> simp [h]

/-- Appending a fresh post row does not change the owner of a vote that does
not reference the fresh id. -/
theorem voteOwner_posts_append (db db' : DBState) (P : PostRow)
    (hp : db'.posts = db.posts ++ [P]) (hc : db'.comments = db.comments)
    (x : VoteRow) (hx : x.post_id ≠ some P.id) :
    voteOwner db' x = voteOwner db x := by
  unfold voteOwner
  cases hpx : x.post_id with
  | some p =>
    show ((db'.posts.find? fun q => q.id = p).map (·.user_id)) =
      ((db.posts.find? fun q => q.id = p).map (·.user_id))
    rw [hp, List.find?_append]
    have hP : ([P].find? fun q => decide (q.id = p)) = none := by
      have : ¬ P.id = p := fun h => hx (by rw [hpx, h])
      simp [this]
    rw [hP]
    cases db.posts.find? (fun q => decide (q.id = p)) <;> rfl
  | none =>
    cases x.comment_id with
    | none => rfl
    | some c =>
      show ((db'.comments.find? fun q => q.id = c).map (·.user_id)) =
        ((db.comments.find? fun q => q.id = c).map (·.user_id))
      rw [hc]

/-- Appending a fresh comment row does not change the owner of a vote that
does not reference the fresh id. -/
theorem voteOwner_comments_append (db db' : DBState) (C : CommentRow)
    (hp : db'.posts = db.posts) (hc : db'.comments = db.comments ++ [C])
    (x : VoteRow) (hx : x.comment_id ≠ some C.id) :
    voteOwner db' x = voteOwner db x := by
  unfold voteOwner
  cases hpx : x.post_id with
  | some p =>
    show ((db'.posts.find? fun q => q.id = p).map (·.user_id)) =
      ((db.posts.find? fun q => q.id = p).map (·.user_id))
    rw [hp]
  | none =>
    cases hcx : x.comment_id with
    | none => rfl
    | some c =>
      show ((db'.comments.find? fun q => q.id = c).map (·.user_id)) =
        ((db.comments.find? fun q => q.id = c).map (·.user_id))
      rw [hc, List.find?_append]
      have hC : ([C].find? fun q => decide (q.id = c)) = none := by
        have : ¬ C.id = c := fun h => hx (by rw [hcx, h])
        simp [this]
      rw [hC]
      cases db.comments.find? (fun q => decide (q.id = c)) <;> rfl

/-- Karma-sum after appending one vote row, when the owners of the existing
rows are untouched. -/
theorem karmaSum_append_one (db db' : DBState) (V : VoteRow) (uid : Int)
    (hv : db'.votes = db.votes ++ [V])
    (hown : ∀ x ∈ db.votes, voteOwner db' x = voteOwner db x) :
    karmaSum db' uid = karmaSum db uid +
      (if voteOwner db' V = some uid then V.value else 0) := by
  unfold karmaSum
  have h1 : (List.map (fun v => if voteOwner db' v = some uid then v.value else 0) db.votes) =
      (List.map (fun v => if voteOwner db v = some uid then v.value else 0) db.votes) := by
    apply List.map_congr_left
    intro x hx
    rw [hown x hx]
  rw [hv, List.map_append, List.sum_append, h1]
  simp

/-- Karma-sum is unchanged when neither the votes nor any owner changes. -/
theorem karmaSum_congr (db db' : DBState) (uid : Int)
    (hv : db'.votes = db.votes)
    (hown : ∀ x ∈ db.votes, voteOwner db' x = voteOwner db x) :
    karmaSum db' uid = karmaSum db uid := by
  unfold karmaSum
  rw [hv]
  apply congrArg
  apply List.map_congr_left
  intro x hx
  rw [hown x hx]

/-- Karma-sum after deleting the unique vote row matching `m`. -/
theorem karmaSum_delete (db db' : DBState) (m : VoteRow → Bool) (w : VoteRow) (uid : Int)
    (hv : db'.votes = db.votes.filter fun a => !(m a))
    (hown : ∀ x ∈ db.votes, voteOwner db' x = voteOwner db x)
    (hpw : db.votes.Pairwise fun a b => ¬(m a = true ∧ m b = true))
    (hfind : db.votes.find? m = some w) :
    karmaSum db' uid = karmaSum db uid -
      (if voteOwner db w = some uid then w.value else 0) := by
  unfold karmaSum
  rw [hv]
  have hmap : ((db.votes.filter fun a => !(m a)).map
      fun v => if voteOwner db' v = some uid then v.value else 0) =
      ((db.votes.filter fun a => !(m a)).map
      fun v => if voteOwner db v = some uid then v.value else 0) := by
    apply List.map_congr_left
    intro x hx
    rw [hown x (List.mem_filter.mp hx).1]
  rw [hmap]
  exact sum_map_filter_not_single db.votes m _ hpw w hfind

/-- Karma-sum after rewriting the value of the unique vote row matching `m`
to `v` (the owner of the rewritten row is the owner of the old row). -/
theorem karmaSum_update (db db' : DBState) (m : VoteRow → Bool) (w : VoteRow)
    (uid v : Int)
    (hv : db'.votes = db.votes.map fun a => if m a then { a with value := v } else a)
    (hown : ∀ x, voteOwner db' x = voteOwner db x)
    (hpw : db.votes.Pairwise fun a b => ¬(m a = true ∧ m b = true))
    (hfind : db.votes.find? m = some w) :
    karmaSum db' uid = karmaSum db uid -
      (if voteOwner db w = some uid then w.value else 0) +
      (if voteOwner db w = some uid then v else 0) := by
  unfold karmaSum
  rw [hv]
  have hfun : (fun x : VoteRow => if voteOwner db' x = some uid then x.value else 0) =
      (fun x : VoteRow => if voteOwner db x = some uid then x.value else 0) := by
    funext x
    rw [hown x]
  rw [hfun]
  have := sum_map_update_single db.votes m
    (fun x : VoteRow => if voteOwner db x = some uid then x.value else 0)
    (fun a => { a with value := v }) hpw w hfind
  rw [this]
  have howner : voteOwner db { w with value := v } = voteOwner db w := rfl
  simp [howner]

/-! ## Per-operation preservation of the structural and karma invariants -/

/-- Under `VotesWF`, at most one vote row matches a `(user, post)` key. -/
theorem pairwise_postVoteMatch (db : DBState) (u pid : Int)
    (hshape : ∀ v ∈ db.votes, VoteShape v)
    (hpw : db.votes.Pairwise fun a b => vkey a ≠ vkey b) :
    db.votes.Pairwise fun a b =>
      ¬(postVoteMatch u pid a = true ∧ postVoteMatch u pid b = true) := by
  refine hpw.imp_of_mem ?_
  intro a b ha hb hne hm
  obtain ⟨hma, hmb⟩ := hm
  have ha2 : a.user_id = u ∧ a.post_id = some pid := by
    unfold postVoteMatch at hma
    simpa using hma
  have hb2 : b.user_id = u ∧ b.post_id = some pid := by
    unfold postVoteMatch at hmb
    simpa using hmb
  have hac : a.comment_id = none := by
    rcases hshape a ha with ⟨h1, _⟩ | ⟨_, h2⟩
    · rw [ha2.2] at h1
      cases h1
    · exact h2
  have hbc : b.comment_id = none := by
    rcases hshape b hb with ⟨h1, _⟩ | ⟨_, h2⟩
    · rw [hb2.2] at h1
      cases h1
    · exact h2
  apply hne
  unfold vkey
  rw [ha2.1, ha2.2, hac, hb2.1, hb2.2, hbc]

/-- Under `VotesWF`, at most one vote row matches a `(user, comment)` key. -/
theorem pairwise_commentVoteMatch (db : DBState) (u cid : Int)
    (hshape : ∀ v ∈ db.votes, VoteShape v)
    (hpw : db.votes.Pairwise fun a b => vkey a ≠ vkey b) :
    db.votes.Pairwise fun a b =>
      ¬(commentVoteMatch u cid a = true ∧ commentVoteMatch u cid b = true) := by
  refine hpw.imp_of_mem ?_
  intro a b ha hb hne hm
  obtain ⟨hma, hmb⟩ := hm
  have ha2 : a.user_id = u ∧ a.comment_id = some cid := by
    unfold commentVoteMatch at hma
    simpa using hma
  have hb2 : b.user_id = u ∧ b.comment_id = some cid := by
    unfold commentVoteMatch at hmb
    simpa using hmb
  have hap : a.post_id = none := by
    rcases hshape a ha with ⟨h1, _⟩ | ⟨_, h2⟩
    · exact h1
    · rw [ha2.2] at h2
      cases h2
  have hbp : b.post_id = none := by
    rcases hshape b hb with ⟨h1, _⟩ | ⟨_, h2⟩
    · exact h1
    · rw [hb2.2] at h2
      cases h2
  apply hne
  unfold vkey
  rw [ha2.1, ha2.2, hap, hb2.1, hb2.2, hbp]

/-- `create_post` preserves the structural invariant and the (corrected)
karma relation: the author's karma and vote-sum both grow by one. -/
theorem trace_inv_create_post (db : DBState) (u : Int)
    (hwf : VotesWF db) (hki : KarmaInv db) :
    VotesWF (create_post db u).1 ∧ KarmaInv (create_post db u).1 := by
  obtain ⟨hshape, hpw, hvp, hvc, hpp, hcc⟩ := hwf
  constructor
  · refine ⟨?_, ?_, ?_, ?_, ?_, ?_⟩
    · show ∀ v ∈ db.votes ++ [(⟨u, some db.next_post_id, none, 1⟩ : VoteRow)], VoteShape v
      intro v hv
      rcases List.mem_append.mp hv with h | h
      · exact hshape v h
      · have : v = ⟨u, some db.next_post_id, none, 1⟩ := by simpa using h
        subst this
        right
        exact ⟨by simp, rfl⟩
    · show (db.votes ++ [(⟨u, some db.next_post_id, none, 1⟩ : VoteRow)]).Pairwise
        fun a b => vkey a ≠ vkey b
      rw [List.pairwise_append]
      refine ⟨hpw, by simp, ?_⟩
      intro a ha b hb
      have hb' : b = ⟨u, some db.next_post_id, none, 1⟩ := by simpa using hb
      subst hb'
      intro hkey
      have hpost : a.post_id = some db.next_post_id := congrArg (fun t => t.2.1) hkey
      exact absurd (hvp a ha _ hpost) (lt_irrefl _)
    · show ∀ v ∈ db.votes ++ [(⟨u, some db.next_post_id, none, 1⟩ : VoteRow)],
        ∀ p, v.post_id = some p → p < db.next_post_id + 1
      intro v hv p hp
      rcases List.mem_append.mp hv with h | h
      · have := hvp v h p hp
        omega
      · have : v = ⟨u, some db.next_post_id, none, 1⟩ := by simpa using h
        subst this
        have : p = db.next_post_id := by simpa using hp.symm
        omega
    · show ∀ v ∈ db.votes ++ [(⟨u, some db.next_post_id, none, 1⟩ : VoteRow)],
        ∀ c, v.comment_id = some c → c < db.next_comment_id
      intro v hv c hc
      rcases List.mem_append.mp hv with h | h
      · exact hvc v h c hc
      · have : v = ⟨u, some db.next_post_id, none, 1⟩ := by simpa using h
        subst this
        cases hc
    · show ∀ p ∈ db.posts ++ [(⟨db.next_post_id, u, 1⟩ : PostRow)],
        p.id < db.next_post_id + 1
      intro p hp
      rcases List.mem_append.mp hp with h | h
      · have := hpp p h
        omega
      · have : p = ⟨db.next_post_id, u, 1⟩ := by simpa using h
        subst this
        simp
    · exact hcc
  · intro u' hu'
    have hu'' : u' ∈ db.users.map
        (fun x => if x.id = u then { x with karma := x.karma + 1 } else x) := hu'
    obtain ⟨u0, hu0, rfl⟩ := List.mem_map.mp hu''
    have hown : ∀ x ∈ db.votes, voteOwner (create_post db u).1 x = voteOwner db x := by
      intro x hx
      exact voteOwner_posts_append db (create_post db u).1 ⟨db.next_post_id, u, 1⟩ rfl rfl x
        (fun hcontra => absurd (hvp x hx _ hcontra) (lt_irrefl _))
    have hsum := karmaSum_append_one db (create_post db u).1
      ⟨u, some db.next_post_id, none, 1⟩ u0.id rfl hown
    have hV : voteOwner (create_post db u).1 ⟨u, some db.next_post_id, none, 1⟩ =
        some u := by
      show ((db.posts ++ [(⟨db.next_post_id, u, 1⟩ : PostRow)]).find?
        fun q => q.id = db.next_post_id).map (·.user_id) = some u
      rw [List.find?_append]
      have h1 : db.posts.find? (fun q => decide (q.id = db.next_post_id)) = none := by
        rw [List.find?_eq_none]
        intro q hq
        simp only [decide_eq_true_eq]
        intro h
        have := hpp q hq
        omega
      rw [h1]
      simp
    have hcnt : commentCountBy (create_post db u).1 u0.id = commentCountBy db u0.id := rfl
    have hki0 := hki u0 hu0
    rw [hV] at hsum
    by_cases hid : u0.id = u
    · rw [if_pos hid]
      show u0.karma + 1 = karmaSum (create_post db u).1
        ({ u0 with karma := u0.karma + 1 } : UserRow).id -
        commentCountBy (create_post db u).1 ({ u0 with karma := u0.karma + 1 } : UserRow).id
      show u0.karma + 1 = karmaSum (create_post db u).1 u0.id -
        commentCountBy (create_post db u).1 u0.id
      rw [hsum, hcnt, if_pos (by rw [hid])]
      show u0.karma + 1 = karmaSum db u0.id + 1 - commentCountBy db u0.id
      omega
    · rw [if_neg hid]
      show u0.karma = karmaSum (create_post db u).1 u0.id -
        commentCountBy (create_post db u).1 u0.id
      rw [hsum, hcnt, if_neg (by simp; intro h; exact hid h.symm)]
      omega

/-- `create_comment` preserves the structural invariant and the corrected
karma relation: the author's vote-sum and comment count both grow by one
while every karma counter stays put. -/
theorem trace_inv_create_comment (db : DBState) (pid u : Int) (par : Option Int)
    (hwf : VotesWF db) (hki : KarmaInv db) :
    VotesWF (create_comment db pid u par).1 ∧ KarmaInv (create_comment db pid u par).1 := by
  obtain ⟨hshape, hpw, hvp, hvc, hpp, hcc⟩ := hwf
  rw [create_comment_fst]
  constructor
  · refine ⟨?_, ?_, ?_, ?_, ?_, ?_⟩
    · show ∀ v ∈ db.votes ++ [(⟨u, none, some db.next_comment_id, 1⟩ : VoteRow)], VoteShape v
      intro v hv
      rcases List.mem_append.mp hv with h | h
      · exact hshape v h
      · have : v = ⟨u, none, some db.next_comment_id, 1⟩ := by simpa using h
        subst this
        left
        exact ⟨rfl, by simp⟩
    · show (db.votes ++ [(⟨u, none, some db.next_comment_id, 1⟩ : VoteRow)]).Pairwise
        fun a b => vkey a ≠ vkey b
      rw [List.pairwise_append]
      refine ⟨hpw, by simp, ?_⟩
      intro a ha b hb
      have hb' : b = ⟨u, none, some db.next_comment_id, 1⟩ := by simpa using hb
      subst hb'
      intro hkey
      have hcomm : a.comment_id = some db.next_comment_id :=
        congrArg (fun t => t.2.2) hkey
      exact absurd (hvc a ha _ hcomm) (lt_irrefl _)
    · show ∀ v ∈ db.votes ++ [(⟨u, none, some db.next_comment_id, 1⟩ : VoteRow)],
        ∀ p, v.post_id = some p → p < db.next_post_id
      intro v hv p hp
      rcases List.mem_append.mp hv with h | h
      · exact hvp v h p hp
      · have : v = ⟨u, none, some db.next_comment_id, 1⟩ := by simpa using h
        subst this
        cases hp
    · show ∀ v ∈ db.votes ++ [(⟨u, none, some db.next_comment_id, 1⟩ : VoteRow)],
        ∀ c, v.comment_id = some c → c < db.next_comment_id + 1
      intro v hv c hc
      rcases List.mem_append.mp hv with h | h
      · have := hvc v h c hc
        omega
      · have : v = ⟨u, none, some db.next_comment_id, 1⟩ := by simpa using h
        subst this
        have : c = db.next_comment_id := by simpa using hc.symm
        omega
    · exact hpp
    · show ∀ c ∈ db.comments ++ [(⟨db.next_comment_id, pid, u, par, 1⟩ : CommentRow)],
        c.id < db.next_comment_id + 1
      intro c hc
      rcases List.mem_append.mp hc with h | h
      · have := hcc c h
        omega
      · have : c = ⟨db.next_comment_id, pid, u, par, 1⟩ := by simpa using h
        subst this
        simp
  · intro u' hu'
    have hu0 : u' ∈ db.users := hu'
    have hown : ∀ x ∈ db.votes,
        voteOwner { db with
          comments := db.comments ++ [⟨db.next_comment_id, pid, u, par, 1⟩],
          next_comment_id := db.next_comment_id + 1,
          votes := db.votes ++ [⟨u, none, some db.next_comment_id, 1⟩] } x =
        voteOwner db x := by
      intro x hx
      exact voteOwner_comments_append db
        { db with
          comments := db.comments ++ [⟨db.next_comment_id, pid, u, par, 1⟩],
          next_comment_id := db.next_comment_id + 1,
          votes := db.votes ++ [⟨u, none, some db.next_comment_id, 1⟩] }
        ⟨db.next_comment_id, pid, u, par, 1⟩ rfl rfl x
        (fun hcontra => absurd (hvc x hx _ hcontra) (lt_irrefl _))
    have hsum := karmaSum_append_one db
      { db with
        comments := db.comments ++ [⟨db.next_comment_id, pid, u, par, 1⟩],
        next_comment_id := db.next_comment_id + 1,
        votes := db.votes ++ [⟨u, none, some db.next_comment_id, 1⟩] }
      ⟨u, none, some db.next_comment_id, 1⟩ u'.id rfl hown
    have hV : voteOwner
        { db with
          comments := db.comments ++ [⟨db.next_comment_id, pid, u, par, 1⟩],
          next_comment_id := db.next_comment_id + 1,
          votes := db.votes ++ [⟨u, none, some db.next_comment_id, 1⟩] }
        ⟨u, none, some db.next_comment_id, 1⟩ = some u := by
      show ((db.comments ++ [(⟨db.next_comment_id, pid, u, par, 1⟩ : CommentRow)]).find?
        fun q => q.id = db.next_comment_id).map (·.user_id) = some u
      rw [List.find?_append]
      have h1 : db.comments.find? (fun q => decide (q.id = db.next_comment_id)) = none := by
        rw [List.find?_eq_none]
        intro q hq
        simp only [decide_eq_true_eq]
        intro h
        have := hcc q hq
        omega
      rw [h1]
      simp
    have hcnt : commentCountBy
        { db with
          comments := db.comments ++ [⟨db.next_comment_id, pid, u, par, 1⟩],
          next_comment_id := db.next_comment_id + 1,
          votes := db.votes ++ [⟨u, none, some db.next_comment_id, 1⟩] } u'.id =
        commentCountBy db u'.id + (if u = u'.id then 1 else 0) := by
      unfold commentCountBy
      show (((db.comments ++ [(⟨db.next_comment_id, pid, u, par, 1⟩ : CommentRow)]).filter
        fun c => c.user_id = u'.id).length : Int) = _
      rw [List.filter_append, List.length_append]
      by_cases hcu : u = u'.id
      · rw [List.filter_cons_of_pos (by simp [hcu]), if_pos hcu]
        push_cast
        simp
      · rw [List.filter_cons_of_neg (by simp [hcu]), if_neg hcu]
        push_cast
        simp
    have hki0 := hki u' hu0
    show u'.karma = karmaSum _ u'.id - commentCountBy _ u'.id
    rw [hsum, hV, hcnt]
    by_cases hcu : u = u'.id
    · rw [if_pos (by rw [hcu]), if_pos hcu]
      show u'.karma = karmaSum db u'.id + 1 - (commentCountBy db u'.id + 1)
      omega
    · rw [if_neg (by simpa using fun h => hcu h), if_neg hcu]
      omega

/-- `vote_post`, insert branch, as a state equation. -/
theorem vote_post_eq_new (db : DBState) (u pid v : Int) (post : PostRow)
    (hfind : findPost db pid = some post)
    (hex : get_user_vote_for_post db u pid = none) :
    vote_post db u pid v = some (update_user_karma (update_post_score
      { db with votes := db.votes ++ [⟨u, some pid, none, v⟩] } pid v) post.user_id v,
      post.score + v) := by
  unfold vote_post
  rw [hex, hfind]
  dsimp only
  have hfind1 : findPost (update_user_karma (update_post_score
      { db with votes := db.votes ++ [⟨u, some pid, none, v⟩] } pid v) post.user_id v) pid =
      some ⟨post.id, post.user_id, post.score + v⟩ :=
    findPost_update_post_score_self _ pid v post hfind
  rw [hfind1]
  rfl

/-- `vote_post`, toggle-off branch, as a state equation. -/
theorem vote_post_eq_toggle (db : DBState) (u pid v : Int) (post : PostRow)
    (hfind : findPost db pid = some post)
    (hex : get_user_vote_for_post db u pid = some v) :
    vote_post db u pid v = some (update_user_karma (update_post_score
      { db with votes := db.votes.filter fun w => !(postVoteMatch u pid w) } pid (-v))
      post.user_id (-v), post.score + -v) := by
  unfold vote_post
  rw [hex, hfind]
  dsimp only
  rw [if_pos rfl]
  have hfind1 : findPost (update_user_karma (update_post_score
      { db with votes := db.votes.filter fun w => !(postVoteMatch u pid w) } pid (-v))
      post.user_id (-v)) pid = some ⟨post.id, post.user_id, post.score + -v⟩ :=
    findPost_update_post_score_self _ pid (-v) post hfind
  rw [hfind1]
  rfl

/-- `vote_post`, change branch, as a state equation. -/
theorem vote_post_eq_change (db : DBState) (u pid v old : Int) (post : PostRow)
    (hfind : findPost db pid = some post)
    (hex : get_user_vote_for_post db u pid = some old)
    (hne : ¬ old = v) :
    vote_post db u pid v = some (update_user_karma (update_post_score
      { db with votes := db.votes.map fun w =>
          if postVoteMatch u pid w then { w with value := v } else w } pid (v - old))
      post.user_id (v - old), post.score + (v - old)) := by
  unfold vote_post
  rw [hex, hfind]
  dsimp only
  rw [if_neg hne]
  have hfind1 : findPost (update_user_karma (update_post_score
      { db with votes := db.votes.map fun w =>
          if postVoteMatch u pid w then { w with value := v } else w } pid (v - old))
      post.user_id (v - old)) pid = some ⟨post.id, post.user_id, post.score + (v - old)⟩ :=
    findPost_update_post_score_self _ pid (v - old) post hfind
  rw [hfind1]
  rfl

/-- The owner of a vote row that references a post. -/
theorem voteOwner_of_post (db : DBState) (x : VoteRow) (p : Int)
    (hx : x.post_id = some p) :
    voteOwner db x = (findPost db p).map (·.user_id) := by
  unfold voteOwner
  rw [hx]

/-- The owner of a vote row that references a comment. -/
theorem voteOwner_of_comment (db : DBState) (x : VoteRow) (c : Int)
    (hxp : x.post_id = none) (hx : x.comment_id = some c) :
    voteOwner db x = (findComment db c).map (·.user_id) := by
  unfold voteOwner
  rw [hxp, hx]

/-- A score-only post `UPDATE` preserves the id bound on the posts table. -/
theorem update_post_score_posts_bound (db : DBState) (pid dd bound : Int)
    (h : ∀ p ∈ db.posts, p.id < bound) :
    ∀ p ∈ (update_post_score db pid dd).posts, p.id < bound := by
  intro q hq
  obtain ⟨p, hp, rfl⟩ := List.mem_map.mp hq
  have hid : ((if p.id = pid then { p with score := p.score + dd } else p) : PostRow).id =
      p.id := by
    by_cases h2 : p.id = pid <;> simp [h2]
  rw [hid]
  exact h p hp

/-- A score-only comment `UPDATE` preserves the id bound on the comments
table. -/
theorem update_comment_score_comments_bound (db : DBState) (cid dd bound : Int)
    (h : ∀ c ∈ db.comments, c.id < bound) :
    ∀ c ∈ (update_comment_score db cid dd).comments, c.id < bound := by
  intro q hq
  obtain ⟨c, hc, rfl⟩ := List.mem_map.mp hq
  have hid : ((if c.id = cid then { c with score := c.score + dd } else c) : CommentRow).id =
      c.id := by
    by_cases h2 : c.id = cid <;> simp [h2]
  rw [hid]
  exact h c hc

/-- `vote_post` preserves the structural invariant and the corrected karma
relation in all three branches. -/
theorem trace_inv_vote_post (db : DBState) (u pid v : Int) (d : DBState) (r : Int)
    (hsome : vote_post db u pid v = some (d, r))
    (hwf : VotesWF db) (hki : KarmaInv db) : VotesWF d ∧ KarmaInv d := by
  obtain ⟨hshape, hpw, hvp, hvc, hpp, hcc⟩ := hwf
  cases hf : findPost db pid with
  | none =>
    unfold vote_post at hsome
    rw [hf] at hsome
    exact Option.noConfusion hsome
  | some post =>
    have hpidmem : post ∈ db.posts := List.mem_of_find?_eq_some hf
    have hpid : post.id = pid := by
      have := List.find?_some hf
      simpa using this
    have hpidlt : pid < db.next_post_id := hpid ▸ hpp post hpidmem
    cases hex0 : get_user_vote_for_post db u pid with
    | none =>
      rw [vote_post_eq_new db u pid v post hf hex0] at hsome
      have hDd := congrArg Prod.fst (Option.some.inj hsome)
      subst hDd
      have hfn : db.votes.find? (postVoteMatch u pid) = none := by
        cases h : db.votes.find? (postVoteMatch u pid) with
        | none => rfl
        | some w =>
          unfold get_user_vote_for_post at hex0
          rw [h] at hex0
          simp at hex0
      have hexn := List.find?_eq_none.mp hfn
      constructor
      · refine ⟨?_, ?_, ?_, ?_, ?_, ?_⟩
        · show ∀ w ∈ db.votes ++ [(⟨u, some pid, none, v⟩ : VoteRow)], VoteShape w
          intro w hw
          rcases List.mem_append.mp hw with h | h
          · exact hshape w h
          · have : w = ⟨u, some pid, none, v⟩ := by simpa using h
            subst this
            right
            exact ⟨by simp, rfl⟩
        · show (db.votes ++ [(⟨u, some pid, none, v⟩ : VoteRow)]).Pairwise
            fun a b => vkey a ≠ vkey b
          rw [List.pairwise_append]
          refine ⟨hpw, by simp, ?_⟩
          intro a ha b hb
          have hb' : b = ⟨u, some pid, none, v⟩ := by simpa using hb
          subst hb'
          intro hkey
          have hau : a.user_id = u := congrArg (fun t => t.1) hkey
          have hap : a.post_id = some pid := congrArg (fun t => t.2.1) hkey
          apply hexn a ha
          unfold postVoteMatch
          simp [hau, hap]
        · show ∀ w ∈ db.votes ++ [(⟨u, some pid, none, v⟩ : VoteRow)],
            ∀ p, w.post_id = some p → p < db.next_post_id
          intro w hw p hp
          rcases List.mem_append.mp hw with h | h
          · exact hvp w h p hp
          · have : w = ⟨u, some pid, none, v⟩ := by simpa using h
            subst this
            have : p = pid := by simpa using hp.symm
            omega
        · show ∀ w ∈ db.votes ++ [(⟨u, some pid, none, v⟩ : VoteRow)],
            ∀ c, w.comment_id = some c → c < db.next_comment_id
          intro w hw c hc
          rcases List.mem_append.mp hw with h | h
          · exact hvc w h c hc
          · have : w = ⟨u, some pid, none, v⟩ := by simpa using h
            subst this
            cases hc
        · exact update_post_score_posts_bound
            { db with votes := db.votes ++ [⟨u, some pid, none, v⟩] } pid v
            db.next_post_id hpp
        · exact hcc
      · intro u'' hu''
        have hu3 : u'' ∈ db.users.map
            (fun x => if x.id = post.user_id then { x with karma := x.karma + v } else x) :=
          hu''
        obtain ⟨u0, hu0, rfl⟩ := List.mem_map.mp hu3
        have hown : ∀ x, voteOwner (update_user_karma (update_post_score
            { db with votes := db.votes ++ [⟨u, some pid, none, v⟩] } pid v)
            post.user_id v) x = voteOwner db x := fun x =>
          (voteOwner_congr (update_post_score
            { db with votes := db.votes ++ [⟨u, some pid, none, v⟩] } pid v) _ rfl rfl x).trans
            ((voteOwner_update_post_score
              { db with votes := db.votes ++ [⟨u, some pid, none, v⟩] } pid v x).trans
              (voteOwner_congr db
                { db with votes := db.votes ++ [⟨u, some pid, none, v⟩] } rfl rfl x))
        have hsum := karmaSum_append_one db (update_user_karma (update_post_score
            { db with votes := db.votes ++ [⟨u, some pid, none, v⟩] } pid v) post.user_id v)
            ⟨u, some pid, none, v⟩ u0.id rfl (fun x _ => hown x)
        have hVown : voteOwner (update_user_karma (update_post_score
            { db with votes := db.votes ++ [⟨u, some pid, none, v⟩] } pid v) post.user_id v)
            ⟨u, some pid, none, v⟩ = some post.user_id := by
          rw [voteOwner_of_post _ _ pid rfl]
          have hfd : findPost (update_user_karma (update_post_score
              { db with votes := db.votes ++ [⟨u, some pid, none, v⟩] } pid v)
              post.user_id v) pid = some ⟨post.id, post.user_id, post.score + v⟩ :=
            findPost_update_post_score_self _ pid v post hf
          rw [hfd]
          rfl
        have hcnt : commentCountBy (update_user_karma (update_post_score
            { db with votes := db.votes ++ [⟨u, some pid, none, v⟩] } pid v) post.user_id v)
            u0.id = commentCountBy db u0.id := rfl
        have hki0 := hki u0 hu0
        rw [hVown] at hsum
        by_cases hid : u0.id = post.user_id
        · rw [if_pos hid]
          show u0.karma + v = karmaSum _ u0.id - commentCountBy _ u0.id
          rw [hsum, hcnt, if_pos (by rw [hid])]
          show u0.karma + v = karmaSum db u0.id + v - commentCountBy db u0.id
          omega
        · rw [if_neg hid]
          show u0.karma = karmaSum _ u0.id - commentCountBy _ u0.id
          rw [hsum, hcnt, if_neg (by simp only [Option.some.injEq]; intro h; exact hid h.symm)]
          omega
    | some old =>
      have hfw : ∃ w, db.votes.find? (postVoteMatch u pid) = some w ∧ w.value = old := by
        cases h : db.votes.find? (postVoteMatch u pid) with
        | none =>
          unfold get_user_vote_for_post at hex0
          rw [h] at hex0
          simp at hex0
        | some w =>
          refine ⟨w, rfl, ?_⟩
          unfold get_user_vote_for_post at hex0
          rw [h] at hex0
          simpa using hex0
      obtain ⟨w, hfw, hwval⟩ := hfw
      have hwm : postVoteMatch u pid w = true := List.find?_some hfw
      have hwpost : w.post_id = some pid := by
        unfold postVoteMatch at hwm
        simp only [Bool.and_eq_true, decide_eq_true_eq] at hwm
        exact hwm.2
      have hwown : voteOwner db w = some post.user_id := by
        rw [voteOwner_of_post db w pid hwpost, hf]
        rfl
      have hpwm := pairwise_postVoteMatch db u pid hshape hpw
      by_cases hov : old = v
      · subst hov
        rw [vote_post_eq_toggle db u pid old post hf hex0] at hsome
        have hDd := congrArg Prod.fst (Option.some.inj hsome)
        subst hDd
        constructor
        · refine ⟨?_, ?_, ?_, ?_, ?_, ?_⟩
          · show ∀ x ∈ db.votes.filter fun y => !(postVoteMatch u pid y), VoteShape x
            intro x hx
            exact hshape x (List.mem_filter.mp hx).1
          · show (db.votes.filter fun y => !(postVoteMatch u pid y)).Pairwise
              fun a b => vkey a ≠ vkey b
            exact List.Pairwise.sublist (List.filter_sublist _) hpw
          · show ∀ x ∈ db.votes.filter fun y => !(postVoteMatch u pid y),
              ∀ p, x.post_id = some p → p < db.next_post_id
            intro x hx p hp
            exact hvp x (List.mem_filter.mp hx).1 p hp
          · show ∀ x ∈ db.votes.filter fun y => !(postVoteMatch u pid y),
              ∀ c, x.comment_id = some c → c < db.next_comment_id
            intro x hx c hc
            exact hvc x (List.mem_filter.mp hx).1 c hc
          · exact update_post_score_posts_bound
              { db with votes := db.votes.filter fun y => !(postVoteMatch u pid y) }
              pid (-old) db.next_post_id hpp
          · exact hcc
        · intro u'' hu''
          have hu3 : u'' ∈ db.users.map
              (fun x => if x.id = post.user_id then { x with karma := x.karma + -old }
                else x) := hu''
          obtain ⟨u0, hu0, rfl⟩ := List.mem_map.mp hu3
          have hown : ∀ x, voteOwner (update_user_karma (update_post_score
              { db with votes := db.votes.filter fun y => !(postVoteMatch u pid y) }
              pid (-old)) post.user_id (-old)) x = voteOwner db x := fun x =>
            (voteOwner_congr (update_post_score
              { db with votes := db.votes.filter fun y => !(postVoteMatch u pid y) }
              pid (-old)) _ rfl rfl x).trans
              ((voteOwner_update_post_score
                { db with votes := db.votes.filter fun y => !(postVoteMatch u pid y) }
                pid (-old) x).trans
                (voteOwner_congr db
                  { db with votes := db.votes.filter fun y => !(postVoteMatch u pid y) }
                  rfl rfl x))
          have hsum := karmaSum_delete db (update_user_karma (update_post_score
              { db with votes := db.votes.filter fun y => !(postVoteMatch u pid y) }
              pid (-old)) post.user_id (-old)) (postVoteMatch u pid) w u0.id rfl
              (fun x _ => hown x) hpwm hfw
          have hcnt : commentCountBy (update_user_karma (update_post_score
              { db with votes := db.votes.filter fun y => !(postVoteMatch u pid y) }
              pid (-old)) post.user_id (-old)) u0.id = commentCountBy db u0.id := rfl
          have hki0 := hki u0 hu0
          rw [hwown] at hsum
          by_cases hid : u0.id = post.user_id
          · rw [if_pos hid]
            show u0.karma + -old = karmaSum _ u0.id - commentCountBy _ u0.id
            rw [hsum, hcnt, if_pos (by rw [hid])]
            omega
          · rw [if_neg hid]
            show u0.karma = karmaSum _ u0.id - commentCountBy _ u0.id
            rw [hsum, hcnt,
              if_neg (by simp only [Option.some.injEq]; intro h; exact hid h.symm)]
            omega
      · rw [vote_post_eq_change db u pid v old post hf hex0 hov] at hsome
        have hDd := congrArg Prod.fst (Option.some.inj hsome)
        subst hDd
        constructor
        · refine ⟨?_, ?_, ?_, ?_, ?_, ?_⟩
          · show ∀ x ∈ db.votes.map fun y =>
              if postVoteMatch u pid y then { y with value := v } else y, VoteShape x
            intro x hx
            obtain ⟨y, hy, rfl⟩ := List.mem_map.mp hx
            have hsy := hshape y hy
            by_cases h2 : postVoteMatch u pid y = true
            · rw [if_pos h2]
              rcases hsy with ⟨h3, h4⟩ | ⟨h3, h4⟩
              · exact Or.inl ⟨h3, h4⟩
              · exact Or.inr ⟨h3, h4⟩
            · rw [if_neg h2]
              exact hsy
          · show (db.votes.map fun y =>
              if postVoteMatch u pid y then { y with value := v } else y).Pairwise
              fun a b => vkey a ≠ vkey b
            rw [List.pairwise_map]
            refine hpw.imp_of_mem ?_
            intro a b _ _ hne hkey
            apply hne
            have ha : vkey (if postVoteMatch u pid a = true then { a with value := v }
                else a) = vkey a := by
              by_cases h2 : postVoteMatch u pid a = true <;> simp [h2, vkey]
            have hb : vkey (if postVoteMatch u pid b = true then { b with value := v }
                else b) = vkey b := by
              by_cases h2 : postVoteMatch u pid b = true <;> simp [h2, vkey]
            rw [← ha, ← hb, hkey]
          · show ∀ x ∈ db.votes.map fun y =>
              if postVoteMatch u pid y then { y with value := v } else y,
              ∀ p, x.post_id = some p → p < db.next_post_id
            intro x hx p hp
            obtain ⟨y, hy, rfl⟩ := List.mem_map.mp hx
            by_cases h2 : postVoteMatch u pid y = true
            · rw [if_pos h2] at hp
              exact hvp y hy p hp
            · rw [if_neg h2] at hp
              exact hvp y hy p hp
          · show ∀ x ∈ db.votes.map fun y =>
              if postVoteMatch u pid y then { y with value := v } else y,
              ∀ c, x.comment_id = some c → c < db.next_comment_id
            intro x hx c hc
            obtain ⟨y, hy, rfl⟩ := List.mem_map.mp hx
            by_cases h2 : postVoteMatch u pid y = true
            · rw [if_pos h2] at hc
              exact hvc y hy c hc
            · rw [if_neg h2] at hc
              exact hvc y hy c hc
          · exact update_post_score_posts_bound
              { db with votes := db.votes.map fun y =>
                  if postVoteMatch u pid y then { y with value := v } else y }
              pid (v - old) db.next_post_id hpp
          · exact hcc
        · intro u'' hu''
          have hu3 : u'' ∈ db.users.map
              (fun x => if x.id = post.user_id then { x with karma := x.karma + (v - old) }
                else x) := hu''
          obtain ⟨u0, hu0, rfl⟩ := List.mem_map.mp hu3
          have hown : ∀ x, voteOwner (update_user_karma (update_post_score
              { db with votes := db.votes.map fun y =>
                  if postVoteMatch u pid y then { y with value := v } else y }
              pid (v - old)) post.user_id (v - old)) x = voteOwner db x := fun x =>
            (voteOwner_congr (update_post_score
              { db with votes := db.votes.map fun y =>
                  if postVoteMatch u pid y then { y with value := v } else y }
              pid (v - old)) _ rfl rfl x).trans
              ((voteOwner_update_post_score
                { db with votes := db.votes.map fun y =>
                    if postVoteMatch u pid y then { y with value := v } else y }
                pid (v - old) x).trans
                (voteOwner_congr db
                  { db with votes := db.votes.map fun y =>
                      if postVoteMatch u pid y then { y with value := v } else y }
                  rfl rfl x))
          have hsum := karmaSum_update db (update_user_karma (update_post_score
              { db with votes := db.votes.map fun y =>
                  if postVoteMatch u pid y then { y with value := v } else y }
              pid (v - old)) post.user_id (v - old)) (postVoteMatch u pid) w u0.id v rfl
              hown hpwm hfw
          have hcnt : commentCountBy (update_user_karma (update_post_score
              { db with votes := db.votes.map fun y =>
                  if postVoteMatch u pid y then { y with value := v } else y }
              pid (v - old)) post.user_id (v - old)) u0.id = commentCountBy db u0.id := rfl
          have hki0 := hki u0 hu0
          rw [hwown] at hsum
          by_cases hid : u0.id = post.user_id
          · rw [if_pos hid]
            show u0.karma + (v - old) = karmaSum _ u0.id - commentCountBy _ u0.id
            rw [hsum, hcnt, if_pos (by rw [hid]), if_pos (by rw [hid])]
            omega
          · rw [if_neg hid]
            show u0.karma = karmaSum _ u0.id - commentCountBy _ u0.id
            rw [hsum, hcnt,
              if_neg (by simp only [Option.some.injEq]; intro h; exact hid h.symm),
              if_neg (by simp only [Option.some.injEq]; intro h; exact hid h.symm)]
            omega

/-- `vote_comment`, insert branch, as a state equation. -/
theorem vote_comment_eq_new (db : DBState) (u cid v : Int) (c : CommentRow)
    (hfind : findComment db cid = some c)
    (hex : get_user_vote_for_comment db u cid = none) :
    vote_comment db u cid v = some (update_user_karma (update_comment_score
      { db with votes := db.votes ++ [⟨u, none, some cid, v⟩] } cid v) c.user_id v,
      c.score + v) := by
  unfold vote_comment
  rw [hex, hfind]
  dsimp only
  have hfind1 : findComment (update_user_karma (update_comment_score
      { db with votes := db.votes ++ [⟨u, none, some cid, v⟩] } cid v) c.user_id v) cid =
      some ⟨c.id, c.post_id, c.user_id, c.parent_id, c.score + v⟩ :=
    findComment_update_comment_score_self _ cid v c hfind
  rw [hfind1]
  rfl

/-- `vote_comment`, toggle-off branch, as a state equation. -/
theorem vote_comment_eq_toggle (db : DBState) (u cid v : Int) (c : CommentRow)
    (hfind : findComment db cid = some c)
    (hex : get_user_vote_for_comment db u cid = some v) :
    vote_comment db u cid v = some (update_user_karma (update_comment_score
      { db with votes := db.votes.filter fun w => !(commentVoteMatch u cid w) } cid (-v))
      c.user_id (-v), c.score + -v) := by
  unfold vote_comment
  rw [hex, hfind]
  dsimp only
  rw [if_pos rfl]
  have hfind1 : findComment (update_user_karma (update_comment_score
      { db with votes := db.votes.filter fun w => !(commentVoteMatch u cid w) } cid (-v))
      c.user_id (-v)) cid = some ⟨c.id, c.post_id, c.user_id, c.parent_id, c.score + -v⟩ :=
    findComment_update_comment_score_self _ cid (-v) c hfind
  rw [hfind1]
  rfl

/-- `vote_comment`, change branch, as a state equation. -/
theorem vote_comment_eq_change (db : DBState) (u cid v old : Int) (c : CommentRow)
    (hfind : findComment db cid = some c)
    (hex : get_user_vote_for_comment db u cid = some old)
    (hne : ¬ old = v) :
    vote_comment db u cid v = some (update_user_karma (update_comment_score
      { db with votes := db.votes.map fun w =>
          if commentVoteMatch u cid w then { w with value := v } else w } cid (v - old))
      c.user_id (v - old), c.score + (v - old)) := by
  unfold vote_comment
  rw [hex, hfind]
  dsimp only
  rw [if_neg hne]
  have hfind1 : findComment (update_user_karma (update_comment_score
      { db with votes := db.votes.map fun w =>
          if commentVoteMatch u cid w then { w with value := v } else w } cid (v - old))
      c.user_id (v - old)) cid =
      some ⟨c.id, c.post_id, c.user_id, c.parent_id, c.score + (v - old)⟩ :=
    findComment_update_comment_score_self _ cid (v - old) c hfind
  rw [hfind1]
  rfl

/-- `vote_comment` preserves the structural invariant and the corrected
karma relation in all three branches. -/
theorem trace_inv_vote_comment (db : DBState) (u cid v : Int) (d : DBState) (r : Int)
    (hsome : vote_comment db u cid v = some (d, r))
    (hwf : VotesWF db) (hki : KarmaInv db) : VotesWF d ∧ KarmaInv d := by
  obtain ⟨hshape, hpw, hvp, hvc, hpp, hcc⟩ := hwf
  cases hf : findComment db cid with
  | none =>
    unfold vote_comment at hsome
    rw [hf] at hsome
    exact Option.noConfusion hsome
  | some c =>
    have hcidmem : c ∈ db.comments := List.mem_of_find?_eq_some hf
    have hcid : c.id = cid := by
      have := List.find?_some hf
      simpa using this
    have hcidlt : cid < db.next_comment_id := hcid ▸ hcc c hcidmem
    cases hex0 : get_user_vote_for_comment db u cid with
    | none =>
      rw [vote_comment_eq_new db u cid v c hf hex0] at hsome
      have hDd := congrArg Prod.fst (Option.some.inj hsome)
      subst hDd
      have hfn : db.votes.find? (commentVoteMatch u cid) = none := by
        cases h : db.votes.find? (commentVoteMatch u cid) with
        | none => rfl
        | some w =>
          unfold get_user_vote_for_comment at hex0
          rw [h] at hex0
          simp at hex0
      have hexn := List.find?_eq_none.mp hfn
      constructor
      · refine ⟨?_, ?_, ?_, ?_, ?_, ?_⟩
        · show ∀ w ∈ db.votes ++ [(⟨u, none, some cid, v⟩ : VoteRow)], VoteShape w
          intro w hw
          rcases List.mem_append.mp hw with h | h
          · exact hshape w h
          · have : w = ⟨u, none, some cid, v⟩ := by simpa using h
            subst this
            left
            exact ⟨rfl, by simp⟩
        · show (db.votes ++ [(⟨u, none, some cid, v⟩ : VoteRow)]).Pairwise
            fun a b => vkey a ≠ vkey b
          rw [List.pairwise_append]
          refine ⟨hpw, by simp, ?_⟩
          intro a ha b hb
          have hb' : b = ⟨u, none, some cid, v⟩ := by simpa using hb
          subst hb'
          intro hkey
          have hau : a.user_id = u := congrArg (fun t => t.1) hkey
          have hac : a.comment_id = some cid := congrArg (fun t => t.2.2) hkey
          apply hexn a ha
          unfold commentVoteMatch
          simp [hau, hac]
        · show ∀ w ∈ db.votes ++ [(⟨u, none, some cid, v⟩ : VoteRow)],
            ∀ p, w.post_id = some p → p < db.next_post_id
          intro w hw p hp
          rcases List.mem_append.mp hw with h | h
          · exact hvp w h p hp
          · have : w = ⟨u, none, some cid, v⟩ := by simpa using h
            subst this
            cases hp
        · show ∀ w ∈ db.votes ++ [(⟨u, none, some cid, v⟩ : VoteRow)],
            ∀ cc, w.comment_id = some cc → cc < db.next_comment_id
          intro w hw cc hcc2
          rcases List.mem_append.mp hw with h | h
          · exact hvc w h cc hcc2
          · have : w = ⟨u, none, some cid, v⟩ := by simpa using h
            subst this
            have : cc = cid := by simpa using hcc2.symm
            omega
        · exact hpp
        · exact update_comment_score_comments_bound
            { db with votes := db.votes ++ [⟨u, none, some cid, v⟩] } cid v
            db.next_comment_id hcc
      · intro u'' hu''
        have hu3 : u'' ∈ db.users.map
            (fun x => if x.id = c.user_id then { x with karma := x.karma + v } else x) :=
          hu''
        obtain ⟨u0, hu0, rfl⟩ := List.mem_map.mp hu3
        have hown : ∀ x, voteOwner (update_user_karma (update_comment_score
            { db with votes := db.votes ++ [⟨u, none, some cid, v⟩] } cid v)
            c.user_id v) x = voteOwner db x := fun x =>
          (voteOwner_congr (update_comment_score
            { db with votes := db.votes ++ [⟨u, none, some cid, v⟩] } cid v) _ rfl rfl x).trans
            ((voteOwner_update_comment_score
              { db with votes := db.votes ++ [⟨u, none, some cid, v⟩] } cid v x).trans
              (voteOwner_congr db
                { db with votes := db.votes ++ [⟨u, none, some cid, v⟩] } rfl rfl x))
        have hsum := karmaSum_append_one db (update_user_karma (update_comment_score
            { db with votes := db.votes ++ [⟨u, none, some cid, v⟩] } cid v) c.user_id v)
            ⟨u, none, some cid, v⟩ u0.id rfl (fun x _ => hown x)
        have hVown : voteOwner (update_user_karma (update_comment_score
            { db with votes := db.votes ++ [⟨u, none, some cid, v⟩] } cid v) c.user_id v)
            ⟨u, none, some cid, v⟩ = some c.user_id := by
          rw [voteOwner_of_comment _ _ cid rfl rfl]
          have hfd : findComment (update_user_karma (update_comment_score
              { db with votes := db.votes ++ [⟨u, none, some cid, v⟩] } cid v)
              c.user_id v) cid = some ⟨c.id, c.post_id, c.user_id, c.parent_id, c.score + v⟩ :=
            findComment_update_comment_score_self _ cid v c hf
          rw [hfd]
          rfl
        have hcnt : commentCountBy (update_user_karma (update_comment_score
            { db with votes := db.votes ++ [⟨u, none, some cid, v⟩] } cid v) c.user_id v)
            u0.id = commentCountBy db u0.id := by
          unfold commentCountBy
          show (((db.comments.map fun x =>
            if x.id = cid then { x with score := x.score + v } else x).filter
            fun x => x.user_id = u0.id).length : Int) = _
          rw [List.filter_map]
          have hcomp : ((fun x : CommentRow => decide (x.user_id = u0.id)) ∘
              (fun x : CommentRow => if x.id = cid then { x with score := x.score + v }
                else x)) = (fun x : CommentRow => decide (x.user_id = u0.id)) := by
            funext x
            by_cases h2 : x.id = cid <;> simp [h2]
          rw [hcomp, List.length_map]
        have hki0 := hki u0 hu0
        rw [hVown] at hsum
        by_cases hid : u0.id = c.user_id
        · rw [if_pos hid]
          show u0.karma + v = karmaSum _ u0.id - commentCountBy _ u0.id
          rw [hsum, hcnt, if_pos (by rw [hid])]
          show u0.karma + v = karmaSum db u0.id + v - commentCountBy db u0.id
          omega
        · rw [if_neg hid]
          show u0.karma = karmaSum _ u0.id - commentCountBy _ u0.id
          rw [hsum, hcnt, if_neg (by simp only [Option.some.injEq]; intro h; exact hid h.symm)]
          omega
    | some old =>
      have hfw : ∃ w, db.votes.find? (commentVoteMatch u cid) = some w ∧ w.value = old := by
        cases h : db.votes.find? (commentVoteMatch u cid) with
        | none =>
          unfold get_user_vote_for_comment at hex0
          rw [h] at hex0
          simp at hex0
        | some w =>
          refine ⟨w, rfl, ?_⟩
          unfold get_user_vote_for_comment at hex0
          rw [h] at hex0
          simpa using hex0
      obtain ⟨w, hfw, hwval⟩ := hfw
      have hwm : commentVoteMatch u cid w = true := List.find?_some hfw
      have hwmem : w ∈ db.votes := List.mem_of_find?_eq_some hfw
      have hwcomm : w.comment_id = some cid := by
        unfold commentVoteMatch at hwm
        simp only [Bool.and_eq_true, decide_eq_true_eq] at hwm
        exact hwm.2
      have hwpost : w.post_id = none := by
        rcases hshape w hwmem with ⟨h1, _⟩ | ⟨_, h2⟩
        · exact h1
        · rw [hwcomm] at h2
          cases h2
      have hwown : voteOwner db w = some c.user_id := by
        rw [voteOwner_of_comment db w cid hwpost hwcomm, hf]
        rfl
      have hpwm := pairwise_commentVoteMatch db u cid hshape hpw
      by_cases hov : old = v
      · subst hov
        rw [vote_comment_eq_toggle db u cid old c hf hex0] at hsome
        have hDd := congrArg Prod.fst (Option.some.inj hsome)
        subst hDd
        constructor
        · refine ⟨?_, ?_, ?_, ?_, ?_, ?_⟩
          · show ∀ x ∈ db.votes.filter fun y => !(commentVoteMatch u cid y), VoteShape x
            intro x hx
            exact hshape x (List.mem_filter.mp hx).1
          · show (db.votes.filter fun y => !(commentVoteMatch u cid y)).Pairwise
              fun a b => vkey a ≠ vkey b
            exact List.Pairwise.sublist (List.filter_sublist _) hpw
          · show ∀ x ∈ db.votes.filter fun y => !(commentVoteMatch u cid y),
              ∀ p, x.post_id = some p → p < db.next_post_id
            intro x hx p hp
            exact hvp x (List.mem_filter.mp hx).1 p hp
          · show ∀ x ∈ db.votes.filter fun y => !(commentVoteMatch u cid y),
              ∀ cc, x.comment_id = some cc → cc < db.next_comment_id
            intro x hx cc hcc2
            exact hvc x (List.mem_filter.mp hx).1 cc hcc2
          · exact hpp
          · exact update_comment_score_comments_bound
              { db with votes := db.votes.filter fun y => !(commentVoteMatch u cid y) }
              cid (-old) db.next_comment_id hcc
        · intro u'' hu''
          have hu3 : u'' ∈ db.users.map
              (fun x => if x.id = c.user_id then { x with karma := x.karma + -old }
                else x) := hu''
          obtain ⟨u0, hu0, rfl⟩ := List.mem_map.mp hu3
          have hown : ∀ x, voteOwner (update_user_karma (update_comment_score
              { db with votes := db.votes.filter fun y => !(commentVoteMatch u cid y) }
              cid (-old)) c.user_id (-old)) x = voteOwner db x := fun x =>
            (voteOwner_congr (update_comment_score
              { db with votes := db.votes.filter fun y => !(commentVoteMatch u cid y) }
              cid (-old)) _ rfl rfl x).trans
              ((voteOwner_update_comment_score
                { db with votes := db.votes.filter fun y => !(commentVoteMatch u cid y) }
                cid (-old) x).trans
                (voteOwner_congr db
                  { db with votes := db.votes.filter fun y => !(commentVoteMatch u cid y) }
                  rfl rfl x))
          have hsum := karmaSum_delete db (update_user_karma (update_comment_score
              { db with votes := db.votes.filter fun y => !(commentVoteMatch u cid y) }
              cid (-old)) c.user_id (-old)) (commentVoteMatch u cid) w u0.id rfl
              (fun x _ => hown x) hpwm hfw
          have hcnt : commentCountBy (update_user_karma (update_comment_score
              { db with votes := db.votes.filter fun y => !(commentVoteMatch u cid y) }
              cid (-old)) c.user_id (-old)) u0.id = commentCountBy db u0.id := by
            unfold commentCountBy
            show (((db.comments.map fun x =>
              if x.id = cid then { x with score := x.score + -old } else x).filter
              fun x => x.user_id = u0.id).length : Int) = _
            rw [List.filter_map]
            have hcomp : ((fun x : CommentRow => decide (x.user_id = u0.id)) ∘
                (fun x : CommentRow => if x.id = cid then { x with score := x.score + -old }
                  else x)) = (fun x : CommentRow => decide (x.user_id = u0.id)) := by
              funext x
              by_cases h2 : x.id = cid <;> simp [h2]
            rw [hcomp, List.length_map]
          have hki0 := hki u0 hu0
          rw [hwown] at hsum
          by_cases hid : u0.id = c.user_id
          · rw [if_pos hid]
            show u0.karma + -old = karmaSum _ u0.id - commentCountBy _ u0.id
            rw [hsum, hcnt, if_pos (by rw [hid])]
            omega
          · rw [if_neg hid]
            show u0.karma = karmaSum _ u0.id - commentCountBy _ u0.id
            rw [hsum, hcnt,
              if_neg (by simp only [Option.some.injEq]; intro h; exact hid h.symm)]
            omega
      · rw [vote_comment_eq_change db u cid v old c hf hex0 hov] at hsome
        have hDd := congrArg Prod.fst (Option.some.inj hsome)
        subst hDd
        constructor
        · refine ⟨?_, ?_, ?_, ?_, ?_, ?_⟩
          · show ∀ x ∈ db.votes.map fun y =>
              if commentVoteMatch u cid y then { y with value := v } else y, VoteShape x
            intro x hx
            obtain ⟨y, hy, rfl⟩ := List.mem_map.mp hx
            have hsy := hshape y hy
            by_cases h2 : commentVoteMatch u cid y = true
            · rw [if_pos h2]
              rcases hsy with ⟨h3, h4⟩ | ⟨h3, h4⟩
              · exact Or.inl ⟨h3, h4⟩
              · exact Or.inr ⟨h3, h4⟩
            · rw [if_neg h2]
              exact hsy
          · show (db.votes.map fun y =>
              if commentVoteMatch u cid y then { y with value := v } else y).Pairwise
              fun a b => vkey a ≠ vkey b
            rw [List.pairwise_map]
            refine hpw.imp_of_mem ?_
            intro a b _ _ hne hkey
            apply hne
            have ha : vkey (if commentVoteMatch u cid a = true then { a with value := v }
                else a) = vkey a := by
              by_cases h2 : commentVoteMatch u cid a = true <;> simp [h2, vkey]
            have hb : vkey (if commentVoteMatch u cid b = true then { b with value := v }
                else b) = vkey b := by
              by_cases h2 : commentVoteMatch u cid b = true <;> simp [h2, vkey]
            rw [← ha, ← hb, hkey]
          · show ∀ x ∈ db.votes.map fun y =>
              if commentVoteMatch u cid y then { y with value := v } else y,
              ∀ p, x.post_id = some p → p < db.next_post_id
            intro x hx p hp
            obtain ⟨y, hy, rfl⟩ := List.mem_map.mp hx
            by_cases h2 : commentVoteMatch u cid y = true
            · rw [if_pos h2] at hp
              exact hvp y hy p hp
            · rw [if_neg h2] at hp
              exact hvp y hy p hp
          · show ∀ x ∈ db.votes.map fun y =>
              if commentVoteMatch u cid y then { y with value := v } else y,
              ∀ cc, x.comment_id = some cc → cc < db.next_comment_id
            intro x hx cc hcc2
            obtain ⟨y, hy, rfl⟩ := List.mem_map.mp hx
            by_cases h2 : commentVoteMatch u cid y = true
            · rw [if_pos h2] at hcc2
              exact hvc y hy cc hcc2
            · rw [if_neg h2] at hcc2
              exact hvc y hy cc hcc2
          · exact hpp
          · exact update_comment_score_comments_bound
              { db with votes := db.votes.map fun y =>
                  if commentVoteMatch u cid y then { y with value := v } else y }
              cid (v - old) db.next_comment_id hcc
        · intro u'' hu''
          have hu3 : u'' ∈ db.users.map
              (fun x => if x.id = c.user_id then { x with karma := x.karma + (v - old) }
                else x) := hu''
          obtain ⟨u0, hu0, rfl⟩ := List.mem_map.mp hu3
          have hown : ∀ x, voteOwner (update_user_karma (update_comment_score
              { db with votes := db.votes.map fun y =>
                  if commentVoteMatch u cid y then { y with value := v } else y }
              cid (v - old)) c.user_id (v - old)) x = voteOwner db x := fun x =>
            (voteOwner_congr (update_comment_score
              { db with votes := db.votes.map fun y =>
                  if commentVoteMatch u cid y then { y with value := v } else y }
              cid (v - old)) _ rfl rfl x).trans
              ((voteOwner_update_comment_score
                { db with votes := db.votes.map fun y =>
                    if commentVoteMatch u cid y then { y with value := v } else y }
                cid (v - old) x).trans
                (voteOwner_congr db
                  { db with votes := db.votes.map fun y =>
                      if commentVoteMatch u cid y then { y with value := v } else y }
                  rfl rfl x))
          have hsum := karmaSum_update db (update_user_karma (update_comment_score
              { db with votes := db.votes.map fun y =>
                  if commentVoteMatch u cid y then { y with value := v } else y }
              cid (v - old)) c.user_id (v - old)) (commentVoteMatch u cid) w u0.id v rfl
              hown hpwm hfw
          have hcnt : commentCountBy (update_user_karma (update_comment_score
              { db with votes := db.votes.map fun y =>
                  if commentVoteMatch u cid y then { y with value := v } else y }
              cid (v - old)) c.user_id (v - old)) u0.id = commentCountBy db u0.id := by
            unfold commentCountBy
            show (((db.comments.map fun x =>
              if x.id = cid then { x with score := x.score + (v - old) } else x).filter
              fun x => x.user_id = u0.id).length : Int) = _
            rw [List.filter_map]
            have hcomp : ((fun x : CommentRow => decide (x.user_id = u0.id)) ∘
                (fun x : CommentRow =>
                  if x.id = cid then { x with score := x.score + (v - old) } else x)) =
                (fun x : CommentRow => decide (x.user_id = u0.id)) := by
              funext x
              by_cases h2 : x.id = cid <;> simp [h2]
            rw [hcomp, List.length_map]
          have hki0 := hki u0 hu0
          rw [hwown] at hsum
          by_cases hid : u0.id = c.user_id
          · rw [if_pos hid]
            show u0.karma + (v - old) = karmaSum _ u0.id - commentCountBy _ u0.id
            rw [hsum, hcnt, if_pos (by rw [hid]), if_pos (by rw [hid])]
            omega
          · rw [if_neg hid]
            show u0.karma = karmaSum _ u0.id - commentCountBy _ u0.id
            rw [hsum, hcnt,
              if_neg (by simp only [Option.some.injEq]; intro h; exact hid h.symm),
              if_neg (by simp only [Option.some.injEq]; intro h; exact hid h.symm)]
            omega

/-- `vote_store` touches only the store-votes table, so both invariants are
untouched. -/
theorem trace_inv_vote_store (db : DBState) (s u0 : Int) (b : Bool)
    (hwf : VotesWF db) (hki : KarmaInv db) :
    VotesWF (vote_store db s u0 b) ∧ KarmaInv (vote_store db s u0 b) := by
  constructor
  · exact hwf
  · intro u' hu'
    have h := hki u' hu'
    have hs : karmaSum (vote_store db s u0 b) u'.id = karmaSum db u'.id :=
      karmaSum_congr db (vote_store db s u0 b) u'.id rfl
        (fun x _ => voteOwner_congr db (vote_store db s u0 b) rfl rfl x)
    show u'.karma = karmaSum (vote_store db s u0 b) u'.id -
      commentCountBy (vote_store db s u0 b) u'.id
    rw [hs]
    exact h

/-- Every single operation preserves both invariants. -/
theorem trace_inv_applyOp (db : DBState) (op : Op)
    (hwf : VotesWF db) (hki : KarmaInv db) :
    VotesWF (applyOp db op) ∧ KarmaInv (applyOp db op) := by
  cases op with
  | createPost u => exact trace_inv_create_post db u hwf hki
  | createComment p u par => exact trace_inv_create_comment db p u par hwf hki
  | votePost u p v =>
    show VotesWF (match vote_post db u p v with | some (d, _) => d | none => db) ∧
      KarmaInv (match vote_post db u p v with | some (d, _) => d | none => db)
    cases h : vote_post db u p v with
    | none => exact ⟨hwf, hki⟩
    | some pr =>
      obtain ⟨d, r⟩ := pr
      exact trace_inv_vote_post db u p v d r h hwf hki
  | voteComment u c v =>
    show VotesWF (match vote_comment db u c v with | some (d, _) => d | none => db) ∧
      KarmaInv (match vote_comment db u c v with | some (d, _) => d | none => db)
    cases h : vote_comment db u c v with
    | none => exact ⟨hwf, hki⟩
    | some pr =>
      obtain ⟨d, r⟩ := pr
      exact trace_inv_vote_comment db u c v d r h hwf hki
  | voteStore s u0 b => exact trace_inv_vote_store db s u0 b hwf hki

/-- Every trace of operations preserves both invariants. -/
theorem trace_inv_runOps (db : DBState) (ops : List Op)
    (hwf : VotesWF db) (hki : KarmaInv db) :
    VotesWF (runOps db ops) ∧ KarmaInv (runOps db ops) := by
  induction ops generalizing db with
  | nil => exact ⟨hwf, hki⟩
  | cons op ops ih =>
    obtain ⟨h1, h2⟩ := trace_inv_applyOp db op hwf hki
    exact ih (applyOp db op) h1 h2

/-! ## C2 — karma versus the sum of live votes -/

/-- Counterexample to C2 as stated: starting from two users with zero karma,
`createPost 1` keeps karma equal to the vote sum, but a subsequent
`createComment` inserts the author's auto-upvote **without** the matching
karma increment, so after `[createPost 1, createComment 1 1 none]` user 1
has karma 1 while the live votes on user 1's post and comment sum to 2. -/
theorem karma_sum_counterexample :
    KarmaClaim (runOps (⟨[⟨1, 0⟩, ⟨2, 0⟩], [], [], [], [], 1, 1⟩ : DBState)
      [.createPost 1]) ∧
    ¬ KarmaClaim (runOps (⟨[⟨1, 0⟩, ⟨2, 0⟩], [], [], [], [], 1, 1⟩ : DBState)
      [.createPost 1, .createComment 1 1 none]) ∧
    userKarma (runOps (⟨[⟨1, 0⟩, ⟨2, 0⟩], [], [], [], [], 1, 1⟩ : DBState)
      [.createPost 1, .createComment 1 1 none]) 1 = some 1 ∧
    karmaSum (runOps (⟨[⟨1, 0⟩, ⟨2, 0⟩], [], [], [], [], 1, 1⟩ : DBState)
      [.createPost 1, .createComment 1 1 none]) 1 = 2 := by
  refine ⟨?_, ?_, ?_, ?_⟩
  · unfold KarmaClaim
    decide
  · unfold KarmaClaim
    decide
  · decide
  · decide

/-- C2 as amended: after any sequence of post/comment creations and
post/comment/store votes, starting from any well-formed state satisfying
the relation, every user's karma counter equals the sum of the live vote
values on that user's posts and comments **minus the number of comment rows
that user authored** (each comment creation books the author's auto-upvote
in the vote sum but not in karma); and the structural well-formedness is
preserved along the trace. -/
theorem karma_invariant_trace (db : DBState) (ops : List Op)
    (hwf : VotesWF db) (hki : KarmaInv db) :
    KarmaInv (runOps db ops) ∧ VotesWF (runOps db ops) :=
  ⟨(trace_inv_runOps db ops hwf hki).2, (trace_inv_runOps db ops hwf hki).1⟩

/-- Witness for the amended C2 on a concrete five-operation trace mixing
post/comment creation with post, comment and store votes. -/
theorem karma_invariant_trace_witness :
    (VotesWF (⟨[⟨1, 0⟩, ⟨2, 0⟩], [], [], [], [], 1, 1⟩ : DBState) ∧
     KarmaInv (⟨[⟨1, 0⟩, ⟨2, 0⟩], [], [], [], [], 1, 1⟩ : DBState)) ∧
    KarmaInv (runOps (⟨[⟨1, 0⟩, ⟨2, 0⟩], [], [], [], [], 1, 1⟩ : DBState)
      [.createPost 1, .createComment 1 2 none, .votePost 2 1 1,
        .voteComment 1 1 (-1), .voteStore 9 1 true]) := by
  have hwf : VotesWF (⟨[⟨1, 0⟩, ⟨2, 0⟩], [], [], [], [], 1, 1⟩ : DBState) := by
    refine ⟨by simp, by simp, by simp, by simp, by simp, by simp⟩
  have hki : KarmaInv (⟨[⟨1, 0⟩, ⟨2, 0⟩], [], [], [], [], 1, 1⟩ : DBState) := by
    unfold KarmaInv
    decide
  exact ⟨⟨hwf, hki⟩,
    (karma_invariant_trace (⟨[⟨1, 0⟩, ⟨2, 0⟩], [], [], [], [], 1, 1⟩ : DBState)
      [.createPost 1, .createComment 1 2 none, .votePost 2 1 1,
        .voteComment 1 1 (-1), .voteStore 9 1 true] hwf hki).1⟩

/-! ## Comment threading: basic structural lemmas -/

theorem commentTreeIds_def (c : Comment) :
    commentTreeIds c = c.id :: commentForestIds c.replies := by
  obtain ⟨i, p, rs, u, d⟩ := c
  rw [commentTreeIds]

theorem commentForestIds_nil : commentForestIds [] = [] := rfl

theorem commentForestIds_cons (c : Comment) (l : List Comment) :
    commentForestIds (c :: l) = commentTreeIds c ++ commentForestIds l := rfl

theorem commentTreeSize_def (c : Comment) :
    commentTreeSize c = 1 + commentForestSize c.replies := by
  obtain ⟨i, p, rs, u, d⟩ := c
  rw [commentTreeSize]

theorem commentForestSize_nil : commentForestSize [] = 0 := rfl

theorem commentForestSize_cons (c : Comment) (l : List Comment) :
    commentForestSize (c :: l) = commentTreeSize c + commentForestSize l := rfl

theorem commentTreeNodes_def (c : Comment) :
    commentTreeNodes c = c :: commentForestNodes c.replies := by
  obtain ⟨i, p, rs, u, d⟩ := c
  rw [commentTreeNodes]

theorem commentForestNodes_nil : commentForestNodes [] = [] := rfl

theorem commentForestNodes_cons (c : Comment) (l : List Comment) :
    commentForestNodes (c :: l) = commentTreeNodes c ++ commentForestNodes l := rfl

mutual

/-- A tree's node count is the length of its pre-order id list. -/
theorem commentTreeSize_eq_ids_length : ∀ c : Comment,
    commentTreeSize c = (commentTreeIds c).length
  | ⟨i, p, rs, u, d⟩ => by
    rw [commentTreeSize_def, commentTreeIds_def]
    simp only [List.length_cons]
    rw [commentForestSize_eq_ids_length rs]
    omega

/-- A forest's node count is the length of its pre-order id list. -/
theorem commentForestSize_eq_ids_length : ∀ l : List Comment,
    commentForestSize l = (commentForestIds l).length
  | [] => rfl
  | c :: l => by
    rw [commentForestSize_cons, commentForestIds_cons, List.length_append,
      commentTreeSize_eq_ids_length c, commentForestSize_eq_ids_length l]

end

mutual

/-- The pre-order id list is the id image of the pre-order node list. -/
theorem commentTreeIds_eq_nodes : ∀ c : Comment,
    commentTreeIds c = (commentTreeNodes c).map (·.id)
  | ⟨i, p, rs, u, d⟩ => by
    rw [commentTreeIds_def, commentTreeNodes_def, List.map_cons]
    rw [commentForestIds_eq_nodes rs]

/-- The forest id list is the id image of the forest node list. -/
theorem commentForestIds_eq_nodes : ∀ l : List Comment,
    commentForestIds l = (commentForestNodes l).map (·.id)
  | [] => rfl
  | c :: l => by
    rw [commentForestIds_cons, commentForestNodes_cons, List.map_append,
      commentTreeIds_eq_nodes c, commentForestIds_eq_nodes l]

end

/-- Forest ids of a mapped list, as a flattened per-tree list. -/
theorem commentForestIds_map (g : Comment → Comment) : ∀ l : List Comment,
    commentForestIds (l.map g) = (l.map fun x => commentTreeIds (g x)).flatten
  | [] => rfl
  | c :: l => by
    rw [List.map_cons, commentForestIds_cons, List.map_cons, List.flatten_cons,
      commentForestIds_map g l]

/-- Mapped-forest node membership comes from some element's tree. -/
theorem mem_commentForestNodes_map (g : Comment → Comment) (n : Comment) :
    ∀ l : List Comment,
    n ∈ commentForestNodes (l.map g) ↔ ∃ x ∈ l, n ∈ commentTreeNodes (g x)
  | [] => by simp [commentForestNodes_nil]
  | c :: l => by
    rw [List.map_cons, commentForestNodes_cons, List.mem_append,
      mem_commentForestNodes_map g n l]
    constructor
    · rintro (h | ⟨x, hx, hn⟩)
      · exact ⟨c, List.mem_cons_self c l, h⟩
      · exact ⟨x, List.mem_cons_of_mem c hx, hn⟩
    · rintro ⟨x, hx, hn⟩
      rcases List.mem_cons.mp hx with rfl | hx
      · exact Or.inl hn
      · exact Or.inr ⟨x, hx, hn⟩

/-- `attach_replies` never changes a node's id. -/
theorem attach_replies_id (bp : Int → List Comment) (fuel : Nat) (d : Int) (c : Comment) :
    (attach_replies bp fuel d c).id = c.id := by
  cases fuel with
  | zero => rfl
  | succ n =>
    rw [attach_replies]
    cases bp c.id <;> rfl

/-- `attach_replies` never changes a node's parent pointer. -/
theorem attach_replies_parent (bp : Int → List Comment) (fuel : Nat) (d : Int)
    (c : Comment) : (attach_replies bp fuel d c).parent_id = c.parent_id := by
  cases fuel with
  | zero => rfl
  | succ n =>
    rw [attach_replies]
    cases bp c.id <;> rfl

/-- `attach_replies` stamps the depth it is called with. -/
theorem attach_replies_depth (bp : Int → List Comment) (fuel : Nat) (d : Int)
    (c : Comment) : (attach_replies bp fuel d c).depth = d := by
  cases fuel with
  | zero => rfl
  | succ n =>
    rw [attach_replies]
    cases bp c.id <;> rfl

/-- On reply-free inputs whose children map also delivers reply-free
comments, the pre-order ids of an attached tree are the fuel-bounded
reachable ids. -/
theorem commentTreeIds_attach (bp : Int → List Comment)
    (hbp : ∀ p, ∀ x ∈ bp p, x.replies = []) :
    ∀ (fuel : Nat) (d : Int) (c : Comment), c.replies = [] →
    commentTreeIds (attach_replies bp fuel d c) = reachIds bp fuel c := by
  intro fuel
  induction fuel with
  | zero =>
    intro d c hc
    rw [attach_replies, reachIds, commentTreeIds_def]
    show c.id :: commentForestIds c.replies = [c.id]
    rw [hc]
    rfl
  | succ n ih =>
    intro d c hc
    rw [attach_replies, reachIds]
    cases hb : bp c.id with
    | nil =>
      rw [commentTreeIds_def]
      show c.id :: commentForestIds c.replies = c.id :: (List.map (reachIds bp n) []).flatten
      rw [hc]
      rfl
    | cons r rs =>
      rw [commentTreeIds_def]
      show c.id :: commentForestIds ((r :: rs).map fun x => attach_replies bp n (d + 1) x) =
        c.id :: (List.map (reachIds bp n) (r :: rs)).flatten
      rw [commentForestIds_map]
      congr 1
      apply congrArg List.flatten
      apply List.map_congr_left
      intro x hx
      exact ih (d + 1) x (hbp c.id x (hb ▸ hx))

/-! ## Rank of a comment: distance to its root along the parent chain -/

/-- With distinct ids, `find?` by a member's id returns that member. -/
theorem find?_id_of_mem : ∀ (cs : List Comment), ((cs.map (·.id)).Nodup) →
    ∀ c ∈ cs, cs.find? (fun q => q.id = c.id) = some c
  | [], _, c, hc => by cases hc
  | a :: l, hnd, c, hc => by
    rw [List.map_cons] at hnd
    obtain ⟨hna, hnd2⟩ := List.nodup_cons.mp hnd
    rcases List.mem_cons.mp hc with rfl | hc2
    · rw [List.find?_cons_of_pos _ (by simp)]
    · have hne : ¬ (a.id = c.id) := fun h =>
        hna (h ▸ List.mem_map_of_mem (·.id) hc2)
      rw [List.find?_cons_of_neg _ (by simpa using hne)]
      exact find?_id_of_mem l hnd2 c hc2

/-- A defined rank is below the fuel. -/
theorem rankF_lt_fuel : ∀ (cs : List Comment) (fuel : Nat) (c : Comment) (k : Nat),
    rankF cs fuel c = some k → k < fuel
  | _, 0, _, _ => by
    intro h
    simp [rankF] at h
  | cs, fuel + 1, c, k => by
    intro h
    rw [rankF] at h
    cases hp : c.parent_id with
    | none =>
      rw [hp] at h
      dsimp only at h
      have : k = 0 := by simpa using h.symm
      omega
    | some p =>
      rw [hp] at h
      dsimp only at h
      cases hq : cs.find? (fun q => q.id = p) with
      | none =>
        rw [hq] at h
        simp at h
      | some q =>
        rw [hq] at h
        dsimp only at h
        cases hr : rankF cs fuel q with
        | none =>
          rw [hr] at h
          simp at h
        | some k0 =>
          rw [hr] at h
          have hkk : k = k0 + 1 := by simpa using h.symm
          have := rankF_lt_fuel cs fuel q k0 hr
          omega

/-- A defined rank stays the same under any sufficient fuel. -/
theorem rankF_stable : ∀ (cs : List Comment) (fuel : Nat) (c : Comment) (k : Nat),
    rankF cs fuel c = some k → ∀ fuel', k < fuel' → rankF cs fuel' c = some k
  | _, 0, _, _ => by
    intro h
    simp [rankF] at h
  | cs, fuel + 1, c, k => by
    intro h fuel' hk
    obtain ⟨f2, rfl⟩ : ∃ f2, fuel' = f2 + 1 := ⟨fuel' - 1, by omega⟩
    rw [rankF] at h ⊢
    cases hp : c.parent_id with
    | none =>
      rw [hp] at h
      exact h
    | some p =>
      rw [hp] at h
      dsimp only at h ⊢
      cases hq : cs.find? (fun q => q.id = p) with
      | none =>
        rw [hq] at h
        simp at h
      | some q =>
        rw [hq] at h
        dsimp only at h ⊢
        cases hr : rankF cs fuel q with
        | none =>
          rw [hr] at h
          simp at h
        | some k0 =>
          rw [hr] at h
          have hkk : k = k0 + 1 := by simpa using h.symm
          have hstep := rankF_stable cs fuel q k0 hr f2 (by omega)
          rw [hstep]
          simp [hkk]

/-- A child of a ranked comment is ranked one deeper. -/
theorem rankF_child (cs : List Comment) (hnd : (cs.map (·.id)).Nodup)
    (c x : Comment) (hc : c ∈ cs) (hx : x.parent_id = some c.id)
    (fuel k : Nat) (h : rankF cs fuel c = some k) :
    rankF cs (fuel + 1) x = some (k + 1) := by
  rw [rankF, hx]
  dsimp only
  rw [find?_id_of_mem cs hnd c hc]
  dsimp only
  rw [h]
  rfl

/-- A rooted comment's chain length is computed by `rankF`. -/
theorem rootedAt_rankF (cs : List Comment) (hnd : (cs.map (·.id)).Nodup) :
    ∀ {n : Nat} {c : Comment}, RootedAt cs n c → ∀ fuel, n < fuel →
    rankF cs fuel c = some n := by
  intro n c h
  induction h with
  | top c hc hp =>
    intro fuel hf
    obtain ⟨f2, rfl⟩ : ∃ f2, fuel = f2 + 1 := ⟨fuel - 1, by omega⟩
    rw [rankF, hp]
  | child c p n hc hp hpar _ ih =>
    intro fuel hf
    obtain ⟨f2, rfl⟩ : ∃ f2, fuel = f2 + 1 := ⟨fuel - 1, by omega⟩
    rw [rankF, hpar]
    dsimp only
    rw [find?_id_of_mem cs hnd p hp]
    dsimp only
    rw [ih f2 (by omega)]
    rfl

/-- A computed rank yields a rootedness derivation. -/
theorem rankF_rootedAt : ∀ (cs : List Comment) (fuel : Nat) (c : Comment) (k : Nat),
    c ∈ cs → rankF cs fuel c = some k → RootedAt cs k c
  | _, 0, _, _ => by
    intro _ h
    simp [rankF] at h
  | cs, fuel + 1, c, k => by
    intro hc h
    rw [rankF] at h
    cases hp : c.parent_id with
    | none =>
      rw [hp] at h
      dsimp only at h
      have : k = 0 := by simpa using h.symm
      subst this
      exact RootedAt.top c hc hp
    | some p =>
      rw [hp] at h
      dsimp only at h
      cases hq : cs.find? (fun q => q.id = p) with
      | none =>
        rw [hq] at h
        simp at h
      | some q =>
        rw [hq] at h
        dsimp only at h
        have hqm := List.mem_of_find?_eq_some hq
        have hqid : q.id = p := by simpa using List.find?_some hq
        cases hr : rankF cs fuel q with
        | none =>
          rw [hr] at h
          simp at h
        | some k0 =>
          rw [hr] at h
          have hkk : k = k0 + 1 := by simpa using h.symm
          subst hkk
          exact RootedAt.child c q k0 hc hqm (by rw [hp, hqid])
            (rankF_rootedAt cs fuel q k0 hqm hr)

/-- With distinct ids, the chain length to the root is unique. -/
theorem rootedAt_unique (cs : List Comment) (hnd : (cs.map (·.id)).Nodup) :
    ∀ {n : Nat} {c : Comment}, RootedAt cs n c → ∀ m, RootedAt cs m c → n = m := by
  intro n c h
  induction h with
  | top c hc hp =>
    intro m h2
    cases h2 with
    | top => rfl
    | child _ p _ _ _ hpar _ =>
      rw [hp] at hpar
      cases hpar
  | child c p n hc hp hpar _ ih =>
    intro m h2
    cases h2 with
    | top _ _ hp2 =>
      rw [hp2] at hpar
      cases hpar
    | child _ p2 m2 _ hp2 hpar2 hr2 =>
      have hpeq : p = p2 := by
        have hid : p.id = p2.id := by
          rw [hpar] at hpar2
          simpa using hpar2
        exact List.inj_on_of_nodup_map hnd hp hp2 hid
      subst hpeq
      rw [ih m2 hr2]

/-- The parent chain of a rooted comment, as a duplicate-free sublist of the
input: it bounds every chain length by the input length. -/
theorem rootedAt_chain (cs : List Comment) (hnd : (cs.map (·.id)).Nodup) :
    ∀ {n : Nat} {c : Comment}, RootedAt cs n c →
    ∃ l : List Comment, l.length = n + 1 ∧ l.Nodup ∧ l ⊆ cs ∧
      ∀ x ∈ l, ∃ j ≤ n, RootedAt cs j x := by
  intro n c h
  induction h with
  | top c hc hp =>
    exact ⟨[c], rfl, List.nodup_singleton c, by simpa using hc,
      fun x hx => ⟨0, Nat.le_refl 0, by
        have hxc : x = c := by simpa using hx
        rw [hxc]
        exact RootedAt.top c hc hp⟩⟩
  | child c p n hc hp hpar hr ih =>
    obtain ⟨l, h1, h2, h3, h4⟩ := ih
    have hcnotin : c ∉ l := by
      intro hcl
      obtain ⟨j, hj, hrj⟩ := h4 c hcl
      have := rootedAt_unique cs hnd (RootedAt.child c p n hc hp hpar hr) j hrj
      omega
    refine ⟨l ++ [c], by simp [h1], ?_, ?_, ?_⟩
    · rw [List.nodup_append]
      exact ⟨h2, List.nodup_singleton c, by
        intro a ha hac
        have : a = c := by simpa using hac
        subst this
        exact hcnotin ha⟩
    · intro x hx
      rcases List.mem_append.mp hx with hx | hx
      · exact h3 hx
      · have : x = c := by simpa using hx
        subst this
        exact hc
    · intro x hx
      rcases List.mem_append.mp hx with hx | hx
      · obtain ⟨j, hj, hrj⟩ := h4 x hx
        exact ⟨j, by omega, hrj⟩
      · have hxc : x = c := by simpa using hx
        rw [hxc]
        exact ⟨n + 1, Nat.le_refl _, RootedAt.child c p n hc hp hpar hr⟩

/-- With distinct ids, every computed rank is below the input length. -/
theorem rankF_lt_length (cs : List Comment) (hnd : (cs.map (·.id)).Nodup)
    (fuel : Nat) (c : Comment) (k : Nat) (hc : c ∈ cs)
    (h : rankF cs fuel c = some k) : k < cs.length := by
  have hra := rankF_rootedAt cs fuel c k hc h
  obtain ⟨l, h1, h2, h3, _⟩ := rootedAt_chain cs hnd hra
  have := List.Subperm.length_le (List.subperm_of_subset h2 h3)
  omega

/-- Rootedness coincides with the rank being defined at ample fuel. -/
theorem rooted_iff_rankF_isSome (cs : List Comment) (hnd : (cs.map (·.id)).Nodup)
    (c : Comment) (hc : c ∈ cs) :
    Rooted cs c ↔ (rankF cs (cs.length + 1) c).isSome := by
  constructor
  · rintro ⟨n, hn⟩
    obtain ⟨l, h1, h2, h3, _⟩ := rootedAt_chain cs hnd hn
    have hlen := List.Subperm.length_le (List.subperm_of_subset h2 h3)
    rw [rootedAt_rankF cs hnd hn (cs.length + 1) (by omega)]
    rfl
  · intro h
    cases hx : rankF cs (cs.length + 1) c with
    | none =>
      rw [hx] at h
      cases h
    | some k => exact ⟨k, rankF_rootedAt cs (cs.length + 1) c k hc hx⟩

open List

/-! ## Levels: the input partitioned by distance to a root -/

/-- A comment with a parent pointer never has rank 0. -/
theorem rankF_ne_zero_of_parent_some (cs : List Comment) (fuel : Nat) (c : Comment)
    (p : Int) (hp : c.parent_id = some p) : rankF cs fuel c ≠ some 0 := by
  intro h
  cases fuel with
  | zero => simp [rankF] at h
  | succ f =>
    rw [rankF, hp] at h
    dsimp only at h
    rcases hfind : cs.find? (fun q => q.id = p) with _ | q
    · rw [hfind] at h
      cases h
    · rw [hfind] at h
      dsimp only at h
      rcases hr : rankF cs f q with _ | k0
      · rw [hr] at h
        cases h
      · rw [hr] at h
        simp at h

/-- Level 0 is precisely the list of top-level comments, in input order. -/
theorem levelComments_zero (cs : List Comment) :
    levelComments cs 0 = cs.filter fun c => c.parent_id = none := by
  unfold levelComments
  apply List.filter_congr
  intro c _
  cases hp : c.parent_id with
  | none =>
    have h0 : rankF cs (cs.length + 1) c = some 0 := by rw [rankF, hp]
    simp [h0, hp]
  | some p =>
    have h0 : rankF cs (cs.length + 1) c ≠ some 0 :=
      rankF_ne_zero_of_parent_some cs _ c p hp
    simp [h0, hp]

/-- The buckets hanging off level `k` are, up to order, exactly level
`k + 1`. -/
theorem levelComments_buckets_perm (cs : List Comment)
    (hnd : (cs.map (·.id)).Nodup) (k : Nat) :
    ((levelComments cs k).map fun c => childrenOf cs c.id).flatten ~
      levelComments cs (k + 1) := by
  have hndcs : cs.Nodup := List.Nodup.of_map _ hnd
  have hlev : (levelComments cs k).Nodup := hndcs.filter _
  apply List.Subperm.antisymm
  · apply List.subperm_of_subset
    · rw [List.nodup_flatten]
      constructor
      · intro l hl
        obtain ⟨c, _, rfl⟩ := List.mem_map.mp hl
        exact hndcs.filter _
      · rw [List.pairwise_map]
        refine hlev.imp_of_mem ?_
        intro a b ha hb hab x hx1 hx2
        have e1 : x.parent_id = some a.id := by
          simpa using (List.mem_filter.mp hx1).2
        have e2 : x.parent_id = some b.id := by
          simpa using (List.mem_filter.mp hx2).2
        have hid : a.id = b.id := by
          rw [e1] at e2
          simpa using e2
        have hmema : a ∈ cs := (List.mem_filter.mp ha).1
        have hmemb : b ∈ cs := (List.mem_filter.mp hb).1
        exact hab (List.inj_on_of_nodup_map hnd hmema hmemb hid)
    · intro x hx
      rw [List.mem_flatten] at hx
      obtain ⟨l, hl, hxl⟩ := hx
      obtain ⟨c, hc, rfl⟩ := List.mem_map.mp hl
      have hxcs := (List.mem_filter.mp hxl).1
      have hxp : x.parent_id = some c.id := by
        simpa using (List.mem_filter.mp hxl).2
      have hcm := (List.mem_filter.mp hc).1
      have hcr : rankF cs (cs.length + 1) c = some k := by
        simpa using (List.mem_filter.mp hc).2
      have hx1 : rankF cs (cs.length + 1 + 1) x = some (k + 1) :=
        rankF_child cs hnd c x hcm hxp (cs.length + 1) k hcr
      have hlt : k + 1 < cs.length := rankF_lt_length cs hnd _ x (k + 1) hxcs hx1
      have hx2 : rankF cs (cs.length + 1) x = some (k + 1) :=
        rankF_stable cs _ x (k + 1) hx1 _ (by omega)
      exact List.mem_filter.mpr ⟨hxcs, by simpa using hx2⟩
  · apply List.subperm_of_subset (hndcs.filter _)
    intro x hx
    have hxcs := (List.mem_filter.mp hx).1
    have hxr : rankF cs (cs.length + 1) x = some (k + 1) := by
      simpa using (List.mem_filter.mp hx).2
    rw [rankF] at hxr
    cases hp : x.parent_id with
    | none =>
      rw [hp] at hxr
      simp at hxr
    | some p =>
      rw [hp] at hxr
      dsimp only at hxr
      cases hq : cs.find? (fun q => q.id = p) with
      | none =>
        rw [hq] at hxr
        simp at hxr
      | some q =>
        rw [hq] at hxr
        dsimp only at hxr
        cases hr : rankF cs cs.length q with
        | none =>
          rw [hr] at hxr
          simp at hxr
        | some k0 =>
          rw [hr] at hxr
          have hk0 : k0 = k := by simpa using hxr
          subst hk0
          have hqm := List.mem_of_find?_eq_some hq
          have hqid : q.id = p := by simpa using List.find?_some hq
          have hq1 : rankF cs (cs.length + 1) q = some k0 :=
            rankF_stable cs _ q k0 hr _
              (by have := rankF_lt_fuel cs _ q k0 hr; omega)
          rw [List.mem_flatten]
          refine ⟨childrenOf cs q.id,
            List.mem_map_of_mem _ (List.mem_filter.mpr ⟨hqm, by simpa using hq1⟩), ?_⟩
          exact List.mem_filter.mpr ⟨hxcs, by simp [hp, hqid]⟩

/-- Filtering by a disjunction of disjoint predicates splits, up to order,
into the two filters. -/
theorem perm_filter_or {α : Type} (l : List α) (p q : α → Bool)
    (hdisj : ∀ a, p a = true → q a = false) :
    l.filter (fun a => p a || q a) ~ l.filter p ++ l.filter q := by
  induction l with
  | nil => exact List.Perm.refl _
  | cons a l ih =>
    by_cases hp : p a = true
    · have hq : q a = false := hdisj a hp
      rw [List.filter_cons_of_pos (by simp [hp]), List.filter_cons_of_pos hp,
        List.filter_cons_of_neg (by simp [hq]), List.cons_append]
      exact ih.cons a
    · by_cases hq : q a = true
      · rw [List.filter_cons_of_pos (by simp [hp, hq]), List.filter_cons_of_neg (by simp [hp]),
          List.filter_cons_of_pos hq]
        calc a :: l.filter (fun a => p a || q a)
            ~ a :: (l.filter p ++ l.filter q) := ih.cons a
          _ ~ l.filter p ++ a :: l.filter q := List.perm_middle.symm
      · rw [List.filter_cons_of_neg (by simp [hp, hq]), List.filter_cons_of_neg (by simp [hp]),
          List.filter_cons_of_neg (fun h => hq h)]
        exact ih

/-- `m` consecutive levels starting at `k` are, up to order, the comments
whose rank lies in `[k, k + m)`. -/
theorem levelsFrom_perm_filter (cs : List Comment) : ∀ (m k : Nat),
    levelsFrom cs k m ~ cs.filter fun c =>
      match rankF cs (cs.length + 1) c with
      | some j => decide (k ≤ j) && decide (j < k + m)
      | none => false := by
  intro m
  induction m with
  | zero =>
    intro k
    rw [levelsFrom]
    have hnil : (cs.filter fun c =>
        match rankF cs (cs.length + 1) c with
        | some j => decide (k ≤ j) && decide (j < k + 0)
        | none => false) = [] := by
      rw [List.filter_eq_nil_iff]
      intro c _
      cases h : rankF cs (cs.length + 1) c with
      | none => simp
      | some j =>
        simp only [Bool.and_eq_true, decide_eq_true_eq, not_and]
        omega
    rw [hnil]
  | succ m ih =>
    intro k
    rw [levelsFrom]
    have hdisj : ∀ c, (decide (rankF cs (cs.length + 1) c = some k)) = true →
        (match rankF cs (cs.length + 1) c with
          | some j => decide (k + 1 ≤ j) && decide (j < (k + 1) + m)
          | none => false) = false := by
      intro c hc
      have : rankF cs (cs.length + 1) c = some k := by simpa using hc
      rw [this]
      simp only [Bool.and_eq_false_iff, decide_eq_false_iff_not]
      left
      omega
    have hperm := perm_filter_or cs
      (fun c => rankF cs (cs.length + 1) c = some k)
      (fun c => match rankF cs (cs.length + 1) c with
        | some j => decide (k + 1 ≤ j) && decide (j < (k + 1) + m)
        | none => false) hdisj
    calc levelComments cs k ++ levelsFrom cs (k + 1) m
        ~ levelComments cs k ++ cs.filter (fun c =>
            match rankF cs (cs.length + 1) c with
            | some j => decide ((k + 1) ≤ j) && decide (j < (k + 1) + m)
            | none => false) := List.Perm.append_left _ (ih (k + 1))
      _ ~ cs.filter (fun c => (decide (rankF cs (cs.length + 1) c = some k)) ||
            (match rankF cs (cs.length + 1) c with
              | some j => decide ((k + 1) ≤ j) && decide (j < (k + 1) + m)
              | none => false)) := hperm.symm
      _ = cs.filter (fun c =>
            match rankF cs (cs.length + 1) c with
            | some j => decide (k ≤ j) && decide (j < k + (m + 1))
            | none => false) := by
          apply List.filter_congr
          intro c _
          cases h : rankF cs (cs.length + 1) c with
          | none => simp
          | some j =>
            simp only [h, Option.some.injEq]
            rw [Bool.eq_iff_iff]
            simp only [Bool.or_eq_true, Bool.and_eq_true, decide_eq_true_eq]
            omega

/-- With every comment rooted, the levels exhaust the input. -/
theorem levelsFrom_all (cs : List Comment) (hnd : (cs.map (·.id)).Nodup)
    (hrooted : ∀ c ∈ cs, Rooted cs c) :
    levelsFrom cs 0 (cs.length + 1) ~ cs := by
  refine (levelsFrom_perm_filter cs (cs.length + 1) 0).trans ?_
  have : (cs.filter fun c =>
      match rankF cs (cs.length + 1) c with
      | some j => decide (0 ≤ j) && decide (j < 0 + (cs.length + 1))
      | none => false) = cs := by
    rw [List.filter_eq_self]
    intro c hc
    have hsome := (rooted_iff_rankF_isSome cs hnd c hc).mp (hrooted c hc)
    cases h : rankF cs (cs.length + 1) c with
    | none =>
      rw [h] at hsome
      cases hsome
    | some j =>
      have := rankF_lt_length cs hnd _ c j hc h
      simp only [Bool.and_eq_true, decide_eq_true_eq]
      omega
  rw [this]

/-- Without a rootedness hypothesis, the levels exhaust exactly the rooted
part of the input. -/
theorem levelsFrom_isSome (cs : List Comment) (hnd : (cs.map (·.id)).Nodup) :
    levelsFrom cs 0 (cs.length + 1) ~
      cs.filter fun c => (rankF cs (cs.length + 1) c).isSome := by
  refine (levelsFrom_perm_filter cs (cs.length + 1) 0).trans ?_
  have : (cs.filter fun c =>
      match rankF cs (cs.length + 1) c with
      | some j => decide (0 ≤ j) && decide (j < 0 + (cs.length + 1))
      | none => false) = cs.filter fun c => (rankF cs (cs.length + 1) c).isSome := by
    apply List.filter_congr
    intro c hc
    cases h : rankF cs (cs.length + 1) c with
    | none => simp
    | some j =>
      have := rankF_lt_length cs hnd _ c j hc h
      simp only [Option.isSome_some, Bool.and_eq_true, decide_eq_true_eq]
      omega
  rw [this]

/-! ## Flatten bookkeeping and the level-by-level reachability permutation -/

theorem flatten_map_singleton {α β : Type} (f : α → β) :
    ∀ l : List α, (l.map fun a => [f a]).flatten = l.map f
  | [] => rfl
  | a :: l => by
    rw [List.map_cons, List.flatten_cons, flatten_map_singleton f l]
    rfl

theorem flatten_map_cons_perm {α β : Type} (f : α → β) (F : α → List β) :
    ∀ L : List α,
    List.Perm ((L.map fun c => f c :: F c).flatten) (L.map f ++ (L.map F).flatten)
  | [] => List.Perm.refl _
  | a :: L => by
    rw [List.map_cons, List.flatten_cons, List.map_cons, List.map_cons,
      List.flatten_cons, List.cons_append]
    show List.Perm ((f a :: F a) ++ (L.map fun c => f c :: F c).flatten) _
    rw [List.cons_append]
    apply List.Perm.cons
    refine (List.Perm.append_left (F a) (flatten_map_cons_perm f F L)).trans ?_
    refine (List.perm_append_comm).trans ?_
    rw [List.append_assoc]
    exact List.Perm.append_left _ List.perm_append_comm

theorem flatten_structure {γ α β : Type} (B : γ → List α) (g : α → List β) :
    ∀ L : List γ, (L.map fun c => ((B c).map g).flatten).flatten =
      (((L.map B).flatten).map g).flatten
  | [] => rfl
  | a :: L => by
    rw [List.map_cons, List.flatten_cons, List.map_cons, List.flatten_cons,
      List.map_append, List.flatten_append, flatten_structure B g L]

/-- Fuel-bounded reachability from any permutation of level `k` lists, up to
order, the ids of the next `fuel + 1` levels. -/
theorem reach_levels_perm (cs : List Comment) (hnd : (cs.map (·.id)).Nodup) :
    ∀ (fuel k : Nat) (L : List Comment), List.Perm L (levelComments cs k) →
    List.Perm ((L.map (reachIds (childrenOf cs) fuel)).flatten)
      ((levelsFrom cs k (fuel + 1)).map (·.id)) := by
  intro fuel
  induction fuel with
  | zero =>
    intro k L hL
    have h1 : (L.map (reachIds (childrenOf cs) 0)).flatten = L.map (·.id) := by
      have h2 : L.map (reachIds (childrenOf cs) 0) = L.map fun c => [c.id] := by
        apply List.map_congr_left
        intro c _
        rfl
      rw [h2, flatten_map_singleton]
    rw [h1]
    have h2 : levelsFrom cs k 1 = levelComments cs k := by
      rw [levelsFrom, levelsFrom, List.append_nil]
    rw [h2]
    exact hL.map _
  | succ n ih =>
    intro k L hL
    have h1 : L.map (reachIds (childrenOf cs) (n + 1)) =
        L.map fun c =>
          c.id :: ((childrenOf cs c.id).map (reachIds (childrenOf cs) n)).flatten := by
      apply List.map_congr_left
      intro c _
      rw [reachIds]
    rw [h1]
    refine (flatten_map_cons_perm (·.id)
      (fun c => ((childrenOf cs c.id).map (reachIds (childrenOf cs) n)).flatten) L).trans ?_
    rw [flatten_structure (fun c => childrenOf cs c.id) (reachIds (childrenOf cs) n) L]
    have hM : List.Perm ((L.map fun c => childrenOf cs c.id).flatten)
        (levelComments cs (k + 1)) :=
      ((hL.map fun c => childrenOf cs c.id).flatten).trans
        (levelComments_buckets_perm cs hnd k)
    have hIH := ih (k + 1) ((L.map fun c => childrenOf cs c.id).flatten) hM
    have hlev : levelsFrom cs k (n + 1 + 1) =
        levelComments cs k ++ levelsFrom cs (k + 1) (n + 1) := by
      rw [levelsFrom]
    rw [hlev, List.map_append]
    exact (hL.map (·.id)).append hIH

/-- The pre-order ids of the threaded forest are, up to order, the ids of
the rooted comments of the (vote-annotated) input. -/
theorem thread_comments_ids_perm (f : Int → Option Int) (cs : List Comment)
    (hnd : (cs.map (·.id)).Nodup) (hrep : ∀ c ∈ cs, c.replies = []) :
    List.Perm (commentForestIds (thread_comments f cs))
      (((cs.map fun c => { c with user_vote := f c.id }).filter
        (fun c => (rankF (cs.map fun c => { c with user_vote := f c.id })
          ((cs.map fun c => { c with user_vote := f c.id }).length + 1) c).isSome)).map
        (·.id)) := by
  have hids : ((cs.map fun c => { c with user_vote := f c.id }).map (·.id)) =
      cs.map (·.id) := by
    rw [List.map_map]
    rfl
  have hnd' : (((cs.map fun c => { c with user_vote := f c.id }).map (·.id))).Nodup := by
    rw [hids]
    exact hnd
  have hrep' : ∀ c' ∈ (cs.map fun c => { c with user_vote := f c.id }), c'.replies = [] := by
    intro c' hc'
    obtain ⟨c, hc, rfl⟩ := List.mem_map.mp hc'
    exact hrep c hc
  have hbp : ∀ p, ∀ x ∈ childrenOf (cs.map fun c => { c with user_vote := f c.id }) p,
      x.replies = [] := by
    intro p x hx
    exact hrep' x (List.mem_filter.mp hx).1
  show List.Perm (commentForestIds
    (((cs.map fun c => { c with user_vote := f c.id }).filter
      (fun c => c.parent_id = none)).map
      (attach_replies (childrenOf (cs.map fun c => { c with user_vote := f c.id }))
        (cs.map fun c => ({ c with user_vote := f c.id } : Comment)).length 0))) _
  rw [commentForestIds_map]
  have h1 : (((cs.map fun c => { c with user_vote := f c.id }).filter
      (fun c => c.parent_id = none)).map
      (fun x => commentTreeIds
        (attach_replies (childrenOf (cs.map fun c => { c with user_vote := f c.id }))
          (cs.map fun c => { c with user_vote := f c.id }).length 0 x))) =
      (((cs.map fun c => { c with user_vote := f c.id }).filter
        (fun c => c.parent_id = none)).map
        (reachIds (childrenOf (cs.map fun c => { c with user_vote := f c.id }))
          (cs.map fun c => { c with user_vote := f c.id }).length)) := by
    apply List.map_congr_left
    intro x hx
    exact commentTreeIds_attach _ hbp _ 0 x (hrep' x (List.mem_filter.mp hx).1)
  rw [h1, ← levelComments_zero]
  refine (reach_levels_perm (cs.map fun c => { c with user_vote := f c.id }) hnd' _ 0 _
    (List.Perm.refl _)).trans ?_
  exact (levelsFrom_isSome (cs.map fun c => { c with user_vote := f c.id }) hnd').map _

/-- Rootedness transfers onto the vote-annotated copies. -/
theorem rootedAt_map_uv (f : Int → Option Int) (cs : List Comment) :
    ∀ {n : Nat} {c : Comment}, RootedAt cs n c →
    RootedAt (cs.map fun c => { c with user_vote := f c.id }) n
      { c with user_vote := f c.id } := by
  intro n c h
  induction h with
  | top c hc hp =>
    exact RootedAt.top _ (List.mem_map_of_mem _ hc) hp
  | child c p n hc hp hpar _ ih =>
    exact RootedAt.child _ _ n (List.mem_map_of_mem _ hc) (List.mem_map_of_mem _ hp)
      hpar ih

/-- Rootedness transfers back from the vote-annotated copies. -/
theorem rootedAt_map_uv_rev (f : Int → Option Int) (cs : List Comment) :
    ∀ {n : Nat} {c' : Comment},
    RootedAt (cs.map fun c => { c with user_vote := f c.id }) n c' →
    ∀ c ∈ cs, c' = { c with user_vote := f c.id } → RootedAt cs n c := by
  intro n c' h
  induction h with
  | top c' hc' hp' =>
    intro c hc he
    apply RootedAt.top c hc
    rw [he] at hp'
    exact hp'
  | child c' p' n _ hp' hpar' _ ih =>
    intro c hc he
    obtain ⟨p, hpmem, hpe⟩ := List.mem_map.mp hp'
    refine RootedAt.child c p n hc hpmem ?_ (ih p hpmem hpe.symm)
    rw [he] at hpar'
    rw [← hpe] at hpar'
    exact hpar'

/-- C9: a comment whose parent chain does not reach a top-level comment of
the input — an orphan such as a reply to a removed (filtered-out) comment,
or a member of a parent cycle — is absent from the forest `thread_comments`
returns, and the forest contains exactly the ids of the comments whose
parent chain reaches a top-level comment within the input. -/
theorem thread_comments_orphans_dropped (f : Int → Option Int) (cs : List Comment)
    (hnd : (cs.map (·.id)).Nodup) (hrep : ∀ c ∈ cs, c.replies = []) :
    ∀ x : Int, x ∈ commentForestIds (thread_comments f cs) ↔
      ∃ c ∈ cs, c.id = x ∧ Rooted cs c := by
  have hids : ((cs.map fun c => { c with user_vote := f c.id }).map (·.id)) =
      cs.map (·.id) := by
    rw [List.map_map]
    rfl
  have hnd' : (((cs.map fun c => { c with user_vote := f c.id }).map (·.id))).Nodup := by
    rw [hids]
    exact hnd
  have hperm := thread_comments_ids_perm f cs hnd hrep
  intro x
  rw [hperm.mem_iff, List.mem_map]
  constructor
  · rintro ⟨c', hc', rfl⟩
    obtain ⟨hc'm, hc's⟩ := List.mem_filter.mp hc'
    obtain ⟨c, hc, rfl⟩ := List.mem_map.mp hc'm
    refine ⟨c, hc, rfl, ?_⟩
    have hrooted' := (rooted_iff_rankF_isSome _ hnd' _ hc'm).mpr (by simpa using hc's)
    obtain ⟨n, hn⟩ := hrooted'
    exact ⟨n, rootedAt_map_uv_rev f cs hn c hc rfl⟩
  · rintro ⟨c, hc, rfl, n, hn⟩
    refine ⟨{ c with user_vote := f c.id }, ?_, rfl⟩
    apply List.mem_filter.mpr
    refine ⟨List.mem_map_of_mem _ hc, ?_⟩
    have : Rooted (cs.map fun c => { c with user_vote := f c.id })
        { c with user_vote := f c.id } := ⟨n, rootedAt_map_uv f cs hn⟩
    simpa using (rooted_iff_rankF_isSome _ hnd' _ (List.mem_map_of_mem _ hc)).mp this

/-! ## Per-node structure of the attached forest -/

/-- With at least one unit of fuel, `attach_replies` installs the children
map entry (recursively attached one level deeper) as the node's replies. -/
theorem attach_replies_replies (bp : Int → List Comment) (fuel : Nat) (d : Int)
    (c : Comment) (hc : c.replies = []) :
    (attach_replies bp (fuel + 1) d c).replies =
      (bp c.id).map fun x => attach_replies bp fuel (d + 1) x := by
  rw [attach_replies]
  cases hb : bp c.id with
  | nil => exact hc
  | cons r rs => rfl

/-- Filtering on the parent pointer and projecting ids commutes with any
id- and parent-preserving per-comment rewrite (such as the `user_vote`
annotation pass). -/
theorem filter_map_uv (g : Comment → Comment) (hgi : ∀ c, (g c).id = c.id)
    (hgp : ∀ c, (g c).parent_id = c.parent_id) (q : Option Int → Bool) :
    ∀ cs : List Comment,
    (((cs.map g).filter fun c => q c.parent_id).map (·.id)) =
      ((cs.filter fun c => q c.parent_id).map (·.id))
  | [] => rfl
  | a :: l => by
    rw [List.map_cons, List.filter_cons, List.filter_cons]
    rw [hgp a]
    by_cases hq : q a.parent_id = true
    · rw [if_pos hq, if_pos hq, List.map_cons, List.map_cons,
        filter_map_uv g hgi hgp q l, hgi a]
    · rw [if_neg hq, if_neg hq, filter_map_uv g hgi hgp q l]

/-- Every node of a tree attached from a ranked comment with sufficient fuel
has as replies exactly the children-map entry for its id (ids in input
order), each reply pointing back at the node and sitting one level deeper. -/
theorem attach_nodes_ok (cs' : List Comment) (hnd' : ((cs'.map (·.id)).Nodup))
    (hrep' : ∀ c ∈ cs', c.replies = []) :
    ∀ (fuel k : Nat) (c : Comment) (d : Int), c ∈ cs' →
    rankF cs' (cs'.length + 1) c = some k → cs'.length ≤ fuel + k →
    ∀ t ∈ commentTreeNodes (attach_replies (childrenOf cs') fuel d c),
      (t.replies.map (·.id) = (childrenOf cs' t.id).map (·.id)) ∧
      (∀ r ∈ t.replies, r.parent_id = some t.id ∧ r.depth = t.depth + 1) := by
  intro fuel
  induction fuel with
  | zero =>
    intro k c d hc hk hb t ht
    exact absurd (rankF_lt_length cs' hnd' (cs'.length + 1) c k hc hk) (by omega)
  | succ n ih =>
    intro k c d hc hk hb t ht
    have hrepc : c.replies = [] := hrep' c hc
    have hA : (attach_replies (childrenOf cs') (n + 1) d c).replies =
        (childrenOf cs' c.id).map fun x => attach_replies (childrenOf cs') n (d + 1) x :=
      attach_replies_replies (childrenOf cs') n d c hrepc
    rw [commentTreeNodes_def] at ht
    rcases List.mem_cons.mp ht with rfl | ht2
    · constructor
      · rw [hA, attach_replies_id, List.map_map]
        apply List.map_congr_left
        intro x _
        exact attach_replies_id (childrenOf cs') n (d + 1) x
      · intro r hrr
        rw [hA] at hrr
        obtain ⟨x, hx, rfl⟩ := List.mem_map.mp hrr
        have hxp : x.parent_id = some c.id := of_decide_eq_true (List.mem_filter.mp hx).2
        constructor
        · rw [attach_replies_parent, attach_replies_id, hxp]
        · rw [attach_replies_depth, attach_replies_depth]
    · rw [hA] at ht2
      obtain ⟨x, hx, htx⟩ := (mem_commentForestNodes_map _ t _).mp ht2
      have hxm : x ∈ cs' := (List.mem_filter.mp hx).1
      have hxp : x.parent_id = some c.id := of_decide_eq_true (List.mem_filter.mp hx).2
      have hx2 := rankF_child cs' hnd' c x hc hxp (cs'.length + 1) k hk
      have hlt := rankF_lt_length cs' hnd' (cs'.length + 1 + 1) x (k + 1) hxm hx2
      have hk' := rankF_stable cs' (cs'.length + 1 + 1) x (k + 1) hx2 (cs'.length + 1)
        (by omega)
      exact ih (k + 1) x (d + 1) hxm hk' (by omega) t htx

/-- C3 refuted as stated: on a one-comment input whose parent id occurs
nowhere in the input — an orphan, not a cycle, since its single parent
pointer leaves the input so no pointer loop exists — the forest is empty
and the node count is 0, not the input length 1. -/
theorem thread_count_counterexample :
    [(⟨1, some 99, [], none, 0⟩ : Comment)].length = 1 ∧
    commentForestSize (thread_comments (fun _ => none)
      [⟨1, some 99, [], none, 0⟩]) = 0 ∧
    ([(⟨1, some 99, [], none, 0⟩ : Comment)].all fun q => decide (q.id ≠ 99)) = true := by
  decide

/-- C3 (amended): on inputs with distinct ids and no pre-existing replies in
which every comment's parent chain reaches a top-level comment, the forest
`thread_comments` returns lists exactly the top-level comments as roots in
input order at depth 0, every node's replies are exactly the input comments
whose `parent_id` is that node's id, in input order, each reply pointing at
the node and at the node's depth plus 1, and the total node count equals the
input length. -/
theorem thread_structure_spec (f : Int → Option Int) (cs : List Comment)
    (hnd : (cs.map (·.id)).Nodup) (hrep : ∀ c ∈ cs, c.replies = [])
    (hrooted : ∀ c ∈ cs, Rooted cs c) :
    ((thread_comments f cs).map (·.id) =
      (cs.filter fun c => c.parent_id = none).map (·.id)) ∧
    (∀ r ∈ thread_comments f cs, r.parent_id = none ∧ r.depth = 0) ∧
    (∀ t ∈ commentForestNodes (thread_comments f cs),
      (t.replies.map (·.id) =
        (cs.filter fun c => c.parent_id = some t.id).map (·.id)) ∧
      ∀ r ∈ t.replies, r.parent_id = some t.id ∧ r.depth = t.depth + 1) ∧
    commentForestSize (thread_comments f cs) = cs.length := by
  have hids : ((cs.map fun c => { c with user_vote := f c.id }).map (·.id)) =
      cs.map (·.id) := by
    rw [List.map_map]
    rfl
  have hnd' : (((cs.map fun c => { c with user_vote := f c.id }).map (·.id))).Nodup := by
    rw [hids]
    exact hnd
  have hrep' : ∀ c' ∈ (cs.map fun c => { c with user_vote := f c.id }), c'.replies = [] := by
    intro c' hc'
    obtain ⟨c, hc, rfl⟩ := List.mem_map.mp hc'
    exact hrep c hc
  refine ⟨?_, ?_, ?_, ?_⟩
  · show ((((cs.map fun c => { c with user_vote := f c.id }).filter
        (fun c => c.parent_id = none)).map
        (fun c => attach_replies (childrenOf (cs.map fun c => { c with user_vote := f c.id }))
          (cs.map fun c => ({ c with user_vote := f c.id } : Comment)).length 0 c)).map
        (·.id)) = (cs.filter fun c => c.parent_id = none).map (·.id)
    refine Eq.trans ?_ (filter_map_uv (fun c => { c with user_vote := f c.id })
      (fun c => rfl) (fun c => rfl) (fun o => decide (o = none)) cs)
    rw [List.map_map]
    apply List.map_congr_left
    intro x _
    exact attach_replies_id _ _ 0 x
  · intro r hr
    have hr' : r ∈ (((cs.map fun c => { c with user_vote := f c.id }).filter
        (fun c => c.parent_id = none)).map
        (fun c => attach_replies (childrenOf (cs.map fun c => { c with user_vote := f c.id }))
          (cs.map fun c => ({ c with user_vote := f c.id } : Comment)).length 0 c)) := hr
    obtain ⟨c, hc, rfl⟩ := List.mem_map.mp hr'
    constructor
    · rw [attach_replies_parent]
      exact of_decide_eq_true (List.mem_filter.mp hc).2
    · exact attach_replies_depth _ _ 0 c
  · intro t ht
    have ht' : t ∈ commentForestNodes
        (((cs.map fun c => { c with user_vote := f c.id }).filter
          (fun c => c.parent_id = none)).map
          (fun c => attach_replies (childrenOf (cs.map fun c => { c with user_vote := f c.id }))
            (cs.map fun c => ({ c with user_vote := f c.id } : Comment)).length 0 c)) := ht
    obtain ⟨c, hc, htc⟩ := (mem_commentForestNodes_map _ t _).mp ht'
    have hcm : c ∈ (cs.map fun c => { c with user_vote := f c.id }) :=
      (List.mem_filter.mp hc).1
    have hcp : c.parent_id = none := of_decide_eq_true (List.mem_filter.mp hc).2
    have h0 : rankF (cs.map fun c => { c with user_vote := f c.id })
        ((cs.map fun c => { c with user_vote := f c.id }).length + 1) c = some 0 := by
      rw [rankF, hcp]
    have hmain := attach_nodes_ok (cs.map fun c => { c with user_vote := f c.id })
      hnd' hrep' ((cs.map fun c => { c with user_vote := f c.id }).length) 0 c 0
      hcm h0 (by omega) t htc
    refine ⟨hmain.1.trans ?_, hmain.2⟩
    exact filter_map_uv (fun c => { c with user_vote := f c.id }) (fun c => rfl)
      (fun c => rfl) (fun o => decide (o = some t.id)) cs
  · rw [commentForestSize_eq_ids_length,
      (thread_comments_ids_perm f cs hnd hrep).length_eq, List.length_map]
    have hall : ((cs.map fun c => { c with user_vote := f c.id }).filter
        (fun c => (rankF (cs.map fun c => { c with user_vote := f c.id })
          ((cs.map fun c => { c with user_vote := f c.id }).length + 1) c).isSome)) =
        (cs.map fun c => { c with user_vote := f c.id }) := by
      apply List.filter_eq_self.mpr
      intro c' hc'
      obtain ⟨c, hc, rfl⟩ := List.mem_map.mp hc'
      have hr : Rooted (cs.map fun c => { c with user_vote := f c.id })
          { c with user_vote := f c.id } := by
        obtain ⟨n, hn⟩ := hrooted c hc
        exact ⟨n, rootedAt_map_uv f cs hn⟩
      exact (rooted_iff_rankF_isSome _ hnd' _ (List.mem_map_of_mem _ hc)).mp hr
    rw [hall, List.length_map]

/-! ## C6 — store reliability score -/

/-- Reorder a conjunction of filters. -/
theorem filter_swap_of_filter_eq {α : Type} (l res : List α) (p q : α → Bool)
    (h : l.filter q = res) :
    l.filter (fun a => q a && p a) = res.filter p := by
  subst h
  rw [List.filter_filter]
  apply List.filter_congr
  intro a _
  rw [Bool.and_comm]

/-- C6: the reliability score of a store is `none` exactly when the store
has no store-vote rows, and otherwise equals `100 * P / N` for `P` positive
among `N` total rows; being recomputed by aggregation at read time, it is
correct after an upsert-replace flips an existing voter's polarity — one of
two positive voters flipping to negative yields 50%, not 100%. -/
theorem store_reliability_spec (db : DBState) (sid : Int) :
    (store_reliability db sid = none ↔ store_total_votes db sid = 0) ∧
    (store_total_votes db sid ≠ 0 →
      store_reliability db sid =
        some (100 * (store_pos_votes db sid : ℚ) / (store_total_votes db sid : ℚ))) ∧
    (∀ u1 u2 : Int, u1 ≠ u2 →
      (db.store_votes.filter fun v => v.store_id = sid) =
        [⟨sid, u1, true⟩, ⟨sid, u2, true⟩] →
      store_reliability (vote_store db sid u2 false) sid = some 50) := by
  refine ⟨?_, ?_, ?_⟩
  · unfold store_reliability reliability_score
    split
    · simp
      omega
    · simp
      omega
  · intro h
    unfold store_reliability reliability_score
    rw [if_pos (Nat.pos_of_ne_zero h)]
    congr 1
    ring
  · intro u1 u2 hne hfilter
    have hbase : ((vote_store db sid u2 false).store_votes.filter
        fun v => v.store_id = sid) = [⟨sid, u1, true⟩, ⟨sid, u2, false⟩] := by
      show (((db.store_votes.filter fun v => !(storeVoteMatch sid u2 v)) ++
        ([⟨sid, u2, false⟩] : List StoreVoteRow)).filter fun v => v.store_id = sid) = _
      rw [List.filter_append]
      have h3 : (db.store_votes.filter fun v => !(storeVoteMatch sid u2 v)).filter
          (fun v => decide (v.store_id = sid)) = [⟨sid, u1, true⟩] := by
        rw [List.filter_filter]
        have h2 := filter_swap_of_filter_eq db.store_votes _
          (fun v => !(storeVoteMatch sid u2 v)) (fun v => decide (v.store_id = sid)) hfilter
        exact h2.trans (by simp [storeVoteMatch, hne])
      rw [h3]
      simp
    have htotal : store_total_votes (vote_store db sid u2 false) sid = 2 := by
      unfold store_total_votes
      rw [hbase]
      rfl
    have hpos : store_pos_votes (vote_store db sid u2 false) sid = 1 := by
      have h4 := filter_swap_of_filter_eq (vote_store db sid u2 false).store_votes _
        (fun v : StoreVoteRow => v.positive) (fun v : StoreVoteRow => decide (v.store_id = sid))
        hbase
      unfold store_pos_votes
      rw [h4]
      rfl
    unfold store_reliability reliability_score
    rw [htotal, hpos]
    norm_num

/-- Witness for C6: two positive voters on store 5, voter 2 flips to
negative; the recomputed reliability is 50%. -/
theorem store_reliability_spec_witness :
    ((1 : Int) ≠ 2 ∧
     ((vote_store (vote_store ⟨[⟨1, 0⟩, ⟨2, 0⟩], [], [], [], [], 1, 1⟩ 5 1 true) 5 2
        true).store_votes.filter fun v => v.store_id = 5) =
       [⟨5, 1, true⟩, ⟨5, 2, true⟩]) ∧
    store_reliability
      (vote_store
        (vote_store (vote_store ⟨[⟨1, 0⟩, ⟨2, 0⟩], [], [], [], [], 1, 1⟩ 5 1 true) 5 2 true)
        5 2 false) 5 = some 50 := by
  refine ⟨⟨by decide, by decide⟩, ?_⟩
  exact (store_reliability_spec
    (vote_store (vote_store ⟨[⟨1, 0⟩, ⟨2, 0⟩], [], [], [], [], 1, 1⟩ 5 1 true) 5 2 true)
    5).2.2 1 2 (by decide) (by decide)

/-- Witness for C8: user 1 with karma 0 in a two-user database. -/
theorem create_karma_divergence_witness :
    userKarma ⟨[⟨1, 0⟩, ⟨2, 0⟩], [], [], [], [], 1, 1⟩ 1 = some 0 ∧
    userKarma (create_post ⟨[⟨1, 0⟩, ⟨2, 0⟩], [], [], [], [], 1, 1⟩ 1).1 1 = some (0 + 1) :=
  ⟨by decide,
   (create_karma_divergence ⟨[⟨1, 0⟩, ⟨2, 0⟩], [], [], [], [], 1, 1⟩ 1 1 none 1 0 (by decide)).2⟩

/-- Witness for the amended C3 theorem: a root with one reply threads into a
forest of exactly two nodes. -/
theorem thread_structure_spec_witness :
    commentForestSize (thread_comments (fun _ => none)
      [⟨1, none, [], none, 0⟩, ⟨2, some 1, [], none, 0⟩]) = 2 :=
  (thread_structure_spec (fun _ => none)
    [⟨1, none, [], none, 0⟩, ⟨2, some 1, [], none, 0⟩]
    (by decide)
    (by
      intro c hc
      rcases List.mem_cons.mp hc with rfl | hc
      · rfl
      · rcases List.mem_cons.mp hc with rfl | hc
        · rfl
        · cases hc)
    (by
      intro c hc
      rcases List.mem_cons.mp hc with rfl | hc
      · exact ⟨0, RootedAt.top _ (List.mem_cons_self _ _) rfl⟩
      · rcases List.mem_cons.mp hc with rfl | hc
        · exact ⟨1, RootedAt.child _ ⟨1, none, [], none, 0⟩ 0
            (List.mem_cons_of_mem _ (List.mem_cons_self _ _)) (List.mem_cons_self _ _)
            rfl (RootedAt.top _ (List.mem_cons_self _ _) rfl)⟩
        · cases hc)).2.2.2

/-- Witness for the C9 theorem: the rooted comment of a two-comment input
(one orphan, one top-level) does appear in the threaded forest. -/
theorem thread_comments_orphans_dropped_witness :
    (2 : Int) ∈ commentForestIds (thread_comments (fun _ => none)
      [⟨1, some 99, [], none, 0⟩, ⟨2, none, [], none, 0⟩]) :=
  (thread_comments_orphans_dropped (fun _ => none)
    [⟨1, some 99, [], none, 0⟩, ⟨2, none, [], none, 0⟩]
    (by decide)
    (by
      intro c hc
      rcases List.mem_cons.mp hc with rfl | hc
      · rfl
      · rcases List.mem_cons.mp hc with rfl | hc
        · rfl
        · cases hc) 2).mpr
    ⟨⟨2, none, [], none, 0⟩, List.mem_cons_of_mem _ (List.mem_cons_self _ _), rfl,
      0, RootedAt.top _ (List.mem_cons_of_mem _ (List.mem_cons_self _ _)) rfl⟩

end WrenchForum
